import Mathlib

/-!
Polynomial from roots over a hand-written big integer (`src/main.cpp`).

A shallow embedding of `struct BigInt`, `convertToDecimal` and `multiplyPoly`
of `src/main.cpp`, followed by theorems about them.

Modelling conventions.

* A `std::string` is a `List Char`; index `0` is the first character.  The
  `digits` field stores the least significant decimal digit first, as in the
  source.
* `char` is the signed 8-bit type of the usual x86-64 ABI: `ord` is the
  `char → int` promotion and `toChar` the `int → char` narrowing.  On every
  well-formed value all characters lie in `'0'..'9'` and no narrowing wraps.
* `int` is modelled by `Int`; `/` and `%` on `int` truncate towards zero
  (`Int.tdiv`, `Int.tmod`).  The values that occur (digit sums, digit
  products with a multiplier of at most 36) are far below `2^31`.
* `size_t` sizes and indices are `Nat`.
-/

namespace Catalog

/-! ## Characters -/

/-- The `char → int` promotion of a signed 8-bit `char`. -/
def ord (c : Char) : Int :=
  if c.toNat % 256 < 128 then ((c.toNat % 256 : Nat) : Int)
  else ((c.toNat % 256 : Nat) : Int) - 256

/-- The `int → char` narrowing, as in `push_back((sum % 10) + '0')`. -/
def toChar (v : Int) : Char := Char.ofNat (v % 256).toNat

/-- The C library `isdigit` in the "C" locale. -/
def isdigit (c : Int) : Bool := decide (48 ≤ c) && decide (c ≤ 57)

/-- The C library `tolower` in the "C" locale. -/
def tolower (c : Int) : Int := if 65 ≤ c ∧ c ≤ 90 then c + 32 else c

/-- The decimal rendering `std::to_string(int)`. -/
def to_string (n : Int) : List Char :=
  if n < 0 then '-' :: Nat.toDigits 10 n.natAbs else Nat.toDigits 10 n.toNat

/-! ## The `BigInt` structure -/

/-- The `struct BigInt` of the source: `digits` least significant first, and the sign flag. -/
structure BigInt where
  digits : List Char
  negative : Bool
deriving DecidableEq

/-- The loop `while (i + 1 < size && s[i] == '0') i++` followed by `substr(i)`, on a string
read from its front: zeros are skipped as long as at least two characters remain.  The loop
`while (digits.size() > 1 && digits.back() == '0') digits.pop_back()` of `removeLeadingZeros`
is the same traversal of the reversed digit string. -/
def skipZeros : List Char → List Char
  | c :: d :: rest => if c = '0' then skipZeros (d :: rest) else c :: d :: rest
  | s => s

/-- The constructor `BigInt(string s)`. -/
def BigInt.ofString : List Char → BigInt
  | [] => ⟨['0'], false⟩
  | c :: cs =>
    let negative := decide (c = '-')
    let s := if c = '-' then cs else c :: cs
    let digits := (skipZeros s).reverse
    ⟨digits, if digits = ['0'] then false else negative⟩

/-- The method `removeLeadingZeros`. -/
def BigInt.removeLeadingZeros (a : BigInt) : BigInt :=
  let digits := (skipZeros a.digits.reverse).reverse
  ⟨digits, if digits = ['0'] then false else a.negative⟩

/-- The expression `i < s.size() ? s[i] - '0' : 0`. -/
def digitAt (s : List Char) (i : Nat) : Int :=
  match s[i]? with
  | some c => ord c - 48
  | none => 0

/-- The loop of `addUnsigned`: `k` iterations remain, `i` is the loop index; the characters
pushed onto `result.digits` are returned in the order they are pushed, the last `if (carry)`
included. -/
def addUnsignedLoop (a b : List Char) : Nat → Nat → Int → List Char
  | 0, _, carry => if carry ≠ 0 then [toChar (carry + 48)] else []
  | k + 1, i, carry =>
    let d1 := digitAt a i
    let d2 := digitAt b i
    let sum := d1 + d2 + carry
    toChar (sum.tmod 10 + 48) :: addUnsignedLoop a b k (i + 1) (sum.tdiv 10)

/-- The static method `addUnsigned`. -/
def BigInt.addUnsigned (a b : BigInt) : BigInt :=
  ⟨addUnsignedLoop a.digits b.digits (max a.digits.length b.digits.length) 0 0, false⟩

/-- The loop of `absCompare`, from index `i - 1` down to `0`. -/
def absCompareLoop (a b : List Char) : Nat → Int
  | 0 => 0
  | i + 1 =>
    if a.getD i '0' ≠ b.getD i '0' then
      (if ord (a.getD i '0') > ord (b.getD i '0') then 1 else -1)
    else absCompareLoop a b i

/-- The static method `absCompare`. -/
def BigInt.absCompare (a b : BigInt) : Int :=
  if a.digits.length ≠ b.digits.length then
    (if a.digits.length > b.digits.length then 1 else -1)
  else absCompareLoop a.digits b.digits a.digits.length

/-- The loop of `subtractUnsigned` over the characters of `a.digits`, `i` the loop index. -/
def subtractUnsignedLoop (b : List Char) : List Char → Nat → Int → List Char
  | [], _, _ => []
  | c :: rest, i, borrow =>
    let d1 := ord c - 48
    let d2 := digitAt b i
    let diff := d1 - d2 - borrow
    if diff < 0 then toChar (diff + 10 + 48) :: subtractUnsignedLoop b rest (i + 1) 1
    else toChar (diff + 48) :: subtractUnsignedLoop b rest (i + 1) 0

/-- The static method `subtractUnsigned`. -/
def BigInt.subtractUnsigned (a b : BigInt) : BigInt :=
  BigInt.removeLeadingZeros ⟨subtractUnsignedLoop b.digits a.digits 0 0, false⟩

/-- The method `operator+`. -/
def BigInt.add (x other : BigInt) : BigInt :=
  if !x.negative && !other.negative then BigInt.addUnsigned x other
  else if x.negative && other.negative then ⟨(BigInt.addUnsigned x other).digits, true⟩
  else
    let cmp := BigInt.absCompare x other
    if !x.negative && other.negative then
      if cmp ≥ 0 then ⟨(BigInt.subtractUnsigned x other).digits, false⟩
      else ⟨(BigInt.subtractUnsigned other x).digits, true⟩
    else if x.negative && !other.negative then
      if cmp > 0 then ⟨(BigInt.subtractUnsigned x other).digits, true⟩
      else ⟨(BigInt.subtractUnsigned other x).digits, false⟩
    else BigInt.ofString ['0']

/-- The method `operator-`. -/
def BigInt.sub (x other : BigInt) : BigInt :=
  let negOther : BigInt := ⟨other.digits, !other.negative⟩
  x.add negOther

/-- The loop of `multiplyDigit` over the characters of `digits`. -/
def multiplyDigitLoop (digit : Int) : List Char → Int → List Char
  | [], carry => if carry ≠ 0 then [toChar (carry + 48)] else []
  | d :: rest, carry =>
    let prod := (ord d - 48) * digit + carry
    toChar (prod.tmod 10 + 48) :: multiplyDigitLoop digit rest (prod.tdiv 10)

/-- The method `multiplyDigit`; the sign expression `negative && digit != 0 ? false : false`
is `false`. -/
def BigInt.multiplyDigit (x : BigInt) (digit : Int) : BigInt :=
  if digit = 0 then BigInt.ofString ['0']
  else ⟨multiplyDigitLoop digit x.digits 0, false⟩

/-- The method `operator*(int)`. -/
def BigInt.mulInt (x : BigInt) (digit : Int) : BigInt := x.multiplyDigit digit

/-- The loop of `operator*(const BigInt&)` over the characters of `other.digits`, `i` the
loop index and `result` the accumulator. -/
def BigInt.mulLoop (x : BigInt) : List Char → Nat → BigInt → BigInt
  | [], _, result => result
  | d :: rest, i, result =>
    let part := x.multiplyDigit (ord d - 48)
    let shifted : BigInt := ⟨List.replicate i '0' ++ part.digits, part.negative⟩
    BigInt.mulLoop x rest (i + 1) (result.add shifted)

/-- The method `operator*(const BigInt&)`. -/
def BigInt.mul (x other : BigInt) : BigInt :=
  let result := BigInt.mulLoop x other.digits 0 (BigInt.ofString ['0'])
  BigInt.removeLeadingZeros ⟨result.digits, x.negative != other.negative⟩

/-- The method `mulBaseAdd`, returning the new value of `*this`. -/
def BigInt.mulBaseAdd (x : BigInt) (base digit : Int) : BigInt :=
  (x.mulInt base).add (BigInt.ofString (to_string digit))

/-- The method `print`, returning the characters written. -/
def BigInt.print (x : BigInt) : List Char :=
  (if x.negative && decide (x.digits ≠ ['0']) then ['-'] else []) ++ x.digits.reverse

/-- The function `convertToDecimal`. -/
def convertToDecimal (value : List Char) (base : Int) : BigInt :=
  value.foldl
    (fun num c =>
      let digit := if isdigit (ord c) then ord c - 48 else 10 + (tolower (ord c) - 97)
      num.mulBaseAdd base digit)
    (BigInt.ofString ['0'])

/-- The function `multiplyPoly`: the vector `result` is updated in place, index by index. -/
def multiplyPoly (poly : List BigInt) (root : BigInt) : List BigInt :=
  (List.range poly.length).foldl
    (fun result i =>
      let zero := BigInt.ofString ['0']
      let result := result.set i ((result.getD i zero).add (poly.getD i zero))
      result.set (i + 1) ((result.getD (i + 1) zero).sub ((poly.getD i zero).mul root)))
    (List.replicate (poly.length + 1) (BigInt.ofString ['0']))

/-- The loop of `main` over `rootValues`, starting from the vector `{BigInt("1")}`. -/
def expandRoots (rootValues : List BigInt) : List BigInt :=
  rootValues.foldl multiplyPoly [BigInt.ofString ['1']]

/-! ## Specification vocabulary -/

/-- The magnitude denoted by a digit string (least significant first). -/
def magnitude : List Char → Int
  | [] => 0
  | c :: cs => (ord c - 48) + 10 * magnitude cs

/-- The integer denoted by a `BigInt`. -/
def BigInt.toInt (x : BigInt) : Int :=
  if x.negative then - magnitude x.digits else magnitude x.digits

/-- A character is one of the decimal digits `'0'..'9'`. -/
def isDec (c : Char) : Bool := decide (48 ≤ c.toNat) && decide (c.toNat ≤ 57)

/-- The invariants on the digit string: non-empty, decimal digits only, and no most
significant zero unless the string is the single digit `0`. -/
def wfDigits (ds : List Char) : Bool :=
  decide (ds ≠ []) && ds.all isDec && (decide (ds = ['0']) || decide (ds.getLast? ≠ some '0'))

/-- The `BigInt` invariants of the data model: the digit-string invariants, and the sign
flag is `false` when the value is zero. -/
def BigInt.wf (x : BigInt) : Bool :=
  wfDigits x.digits && (decide (x.digits ≠ ['0']) || !x.negative)

/-- A valid decimal string: an optional leading `-` followed by one or more characters `0-9`. -/
def validDecimal (s : List Char) : Bool :=
  let body := if s.head? = some '-' then s.tail else s
  decide (body ≠ []) && body.all isDec

/-- The canonical form of a decimal string, following the specification: leading zeros are
stripped down to at least one digit, and the sign is kept exactly when a non-zero digit
remains. -/
def canonicalForm (s : List Char) : List Char :=
  let neg := decide (s.head? = some '-')
  let body := if neg then s.tail else s
  let stripped := body.dropWhile (fun c => c == '0')
  if stripped = [] then ['0'] else if neg then '-' :: stripped else stripped

/-- A character of `[0-9a-zA-Z]`. -/
def isAlnum (c : Char) : Bool :=
  (decide (48 ≤ c.toNat) && decide (c.toNat ≤ 57)) ||
    (decide (97 ≤ c.toNat) && decide (c.toNat ≤ 122)) ||
    (decide (65 ≤ c.toNat) && decide (c.toNat ≤ 90))

/-- The digit value of a character, following the specification: `0`-`9` are 0..9 and the
letters, in either case, are 10..35. -/
def digitValue (c : Char) : Int :=
  if 48 ≤ c.toNat ∧ c.toNat ≤ 57 then (c.toNat : Int) - 48
  else if 97 ≤ c.toNat ∧ c.toNat ≤ 122 then (c.toNat : Int) - 97 + 10
  else if 65 ≤ c.toNat ∧ c.toNat ≤ 90 then (c.toNat : Int) - 65 + 10
  else 0

/-- The Horner sum `((d_1 * b + d_2) * b + ...) + d_m` of the digit values of a string. -/
def hornerValue (b : Int) (s : List Char) : Int :=
  s.foldl (fun acc c => acc * b + digitValue c) 0

/-! ## Predicates and auxiliary functions of the proofs -/

/-- Every character is an ASCII character from `'0'` upwards: its digit value is in `0..79`. -/
def Loose (ds : List Char) : Prop := ∀ c ∈ ds, 48 ≤ c.toNat ∧ c.toNat ≤ 127

/-- Every character is a decimal digit. -/
def Dec (ds : List Char) : Prop := ∀ c ∈ ds, 48 ≤ c.toNat ∧ c.toNat ≤ 57

/-- The most significant character is not `'0'` (vacuous on the empty string). -/
def NoTrail (ds : List Char) : Prop := ds.getLast? ≠ some '0'

/-- The digit-string invariants as a proposition (the reading of `wfDigits`). -/
def WfD (ds : List Char) : Prop := ds ≠ [] ∧ Dec ds ∧ (ds = ['0'] ∨ NoTrail ds)

/-- The value of `result[j]` in `multiplyPoly` after the first `m` iterations of its loop. -/
def polyEntry (poly : List BigInt) (root : BigInt) (m j : Nat) : BigInt :=
  let zero := BigInt.ofString ['0']
  if j < m then
    (if j = 0 then zero.add (poly.getD 0 zero)
     else (zero.sub ((poly.getD (j - 1) zero).mul root)).add (poly.getD j zero))
  else if j = m ∧ 0 < m then zero.sub ((poly.getD (m - 1) zero).mul root)
  else zero

/-- The integer `P[j]` denoted by entry `j` of a coefficient vector, read as `0` outside the
vector (in particular at `j = -1` and `j = len(P)`). -/
def coefVal (P : List BigInt) (j : Int) : Int :=
  if 0 ≤ j then ((P.map BigInt.toInt).getD j.toNat 0) else 0

/-- The recurrence of `multiplyPoly` on integer coefficients: each coefficient minus the
previous one times the root, and one more entry for the last coefficient. -/
def stepVals (r : Int) : Int → List Int → List Int
  | prev, [] => [0 - prev * r]
  | prev, v :: vs => (v - prev * r) :: stepVals r v vs

/-! ## Loop variables read at the end of a loop, and the re-rendering of the specification -/

/-- The value of `carry` when the loop of `addUnsigned` exits (`k` iterations remain, `i` is
the loop index): the `carry` tested by the last `if (carry)`. -/
def addUnsignedCarry (a b : List Char) : Nat → Nat → Int → Int
  | 0, _, carry => carry
  | k + 1, i, carry =>
    let d1 := digitAt a i
    let d2 := digitAt b i
    let sum := d1 + d2 + carry
    addUnsignedCarry a b k (i + 1) (sum.tdiv 10)

/-- The value of `borrow` when the loop of `subtractUnsigned` exits. -/
def subtractUnsignedBorrow (b : List Char) : List Char → Nat → Int → Int
  | [], _, borrow => borrow
  | c :: rest, i, borrow =>
    let d1 := ord c - 48
    let d2 := digitAt b i
    let diff := d1 - d2 - borrow
    if diff < 0 then subtractUnsignedBorrow b rest (i + 1) 1
    else subtractUnsignedBorrow b rest (i + 1) 0

/-- The values taken by `carry` in the loop of `multiplyDigit`, one per iteration. -/
def multiplyDigitCarries (digit : Int) : List Char → Int → List Int
  | [], _ => []
  | d :: rest, carry =>
    let prod := (ord d - 48) * digit + carry
    prod.tdiv 10 :: multiplyDigitCarries digit rest (prod.tdiv 10)

/-- Modelled from the spec: the character written for a digit value when a magnitude is
re-rendered in base `b` (the repository has no rendering in a base other than ten); the
letters are written in lower case. -/
def digitChar (d : Int) : Char :=
  if d < 10 then Char.ofNat (d.toNat + 48) else Char.ofNat (d.toNat - 10 + 97)

/-- Modelled from the spec: the repeated division of the re-rendering, with the characters
of the remainders put in front of `acc`; `fuel` bounds the number of divisions. -/
def renderLoop (b : Int) : Nat → Int → List Char → List Char
  | 0, _, acc => acc
  | fuel + 1, n, acc =>
    if n ≤ 0 then acc else renderLoop b fuel (n / b) (digitChar (n % b) :: acc)

/-- Modelled from the spec: the re-rendering of a magnitude in base `b` by repeated division,
most significant digit first, which the specification uses to check the conversion and the
repository does not contain; zero is written `0`. -/
def renderBase (b n : Int) : List Char :=
  if n ≤ 0 then ['0'] else renderLoop b n.toNat n []

/-- The lower-case form of a character, for the comparison up to letter case. -/
def lowerChar (c : Char) : Char :=
  if 65 ≤ c.toNat ∧ c.toNat ≤ 90 then Char.ofNat (c.toNat + 32) else c

/-- A non-empty string of valid base-`b` digits with no leading zero (the string `0` itself is
allowed). -/
def validDigitString (b : Int) (s : List Char) : Bool :=
  decide (s ≠ []) && s.all (fun c => isAlnum c && decide (digitValue c < b)) &&
    (decide (s = ['0']) || decide (s.head? ≠ some '0'))

/-! ## Facts about characters -/

theorem toNat_ofNat_byte (n : Nat) (h : n < 256) : (Char.ofNat n).toNat = n := by
  have hv : n.isValidChar := Or.inl (by omega)
  simp [Char.ofNat, hv, Char.ofNatAux, Char.toNat, UInt32.toNat]

theorem char_eq_of_toNat {c d : Char} (h : c.toNat = d.toNat) : c = d := by
  have := congrArg Char.ofNat h
  simpa using this

theorem ord_ascii {c : Char} (h : c.toNat ≤ 127) : ord c = (c.toNat : Int) := by
  unfold ord
  have : c.toNat % 256 = c.toNat := Nat.mod_eq_of_lt (by omega)
  rw [this, if_pos (by omega)]

theorem toNat_toChar {v : Int} (h0 : 0 ≤ v) (h1 : v < 256) : ((toChar v).toNat : Int) = v := by
  unfold toChar
  have hm : v % 256 = v := Int.emod_eq_of_lt h0 h1
  rw [hm, toNat_ofNat_byte _ (by omega)]
  omega

theorem ord_toChar {v : Int} (h0 : 0 ≤ v) (h1 : v < 128) : ord (toChar v) = v := by
  have h := toNat_toChar h0 (by omega : v < 256)
  rw [ord_ascii (by omega), h]

theorem toChar_ord_sub {c : Char} (h : c.toNat ≤ 127) : toChar (ord c - 48 + 48) = c := by
  apply char_eq_of_toNat
  have h2 : ord c - 48 + 48 = (c.toNat : Int) := by rw [ord_ascii h]; ring
  have := toNat_toChar (v := ord c - 48 + 48) (by rw [h2]; omega) (by rw [h2]; omega)
  rw [h2] at this ⊢
  exact_mod_cast this

theorem toNat_zero_char : ('0' : Char).toNat = 48 := by decide

theorem eq_zero_char_iff {c : Char} : c = '0' ↔ c.toNat = 48 := by
  constructor
  · rintro rfl; exact toNat_zero_char
  · intro h; exact char_eq_of_toNat (by rw [h, toNat_zero_char])

theorem toChar_eq_zero_iff {v : Int} (h0 : 0 ≤ v) (h1 : v < 80) : toChar (v + 48) = '0' ↔ v = 0 := by
  have h := toNat_toChar (v := v + 48) (by omega) (by omega)
  rw [eq_zero_char_iff]
  omega

/-! ## Digit strings -/

theorem digitAt_nil (i : Nat) : digitAt [] i = 0 := by simp [digitAt]

theorem digitAt_cons_zero (c : Char) (s : List Char) : digitAt (c :: s) 0 = ord c - 48 := by
  simp [digitAt]

theorem digitAt_cons_succ (c : Char) (s : List Char) (i : Nat) :
    digitAt (c :: s) (i + 1) = digitAt s i := by
  simp [digitAt]

theorem digitAt_succ (s : List Char) (i : Nat) : digitAt s (i + 1) = digitAt s.tail i := by
  cases s with
  | nil => simp [digitAt]
  | cons c s => simp [digitAt]

theorem magnitude_head_tail (s : List Char) :
    magnitude s = digitAt s 0 + 10 * magnitude s.tail := by
  cases s with
  | nil => simp [digitAt, magnitude]
  | cons c s => simp [digitAt, magnitude]

theorem Loose.tail {s : List Char} (h : Loose s) : Loose s.tail :=
  fun c hc => h c (List.mem_of_mem_tail hc)

theorem Dec.tail_dec {s : List Char} (h : Dec s) : Dec s.tail :=
  fun c hc => h c (List.mem_of_mem_tail hc)

theorem Dec.loose {s : List Char} (h : Dec s) : Loose s :=
  fun c hc => ⟨(h c hc).1, by have := (h c hc).2; omega⟩

theorem Loose.digitAt_bounds {s : List Char} (h : Loose s) (i : Nat) :
    0 ≤ digitAt s i ∧ digitAt s i ≤ 79 := by
  unfold digitAt
  cases hs : s[i]? with
  | none => simp
  | some c =>
    have hc := h c (List.getElem?_mem hs)
    simp only
    rw [ord_ascii hc.2]
    omega

theorem Dec.digitAt_decimal {s : List Char} (h : Dec s) (i : Nat) :
    0 ≤ digitAt s i ∧ digitAt s i ≤ 9 := by
  unfold digitAt
  cases hs : s[i]? with
  | none => simp
  | some c =>
    have hc := h c (List.getElem?_mem hs)
    simp only
    rw [ord_ascii (by omega)]
    omega

theorem NoTrail.tail_noTrail {s : List Char} (h : NoTrail s) : NoTrail s.tail := by
  unfold NoTrail at *
  cases s with
  | nil => simp
  | cons c s =>
    cases s with
    | nil => simp
    | cons d s => simpa [List.getLast?_cons_cons] using h

theorem noTrail_cons {c : Char} {s : List Char} (hs : NoTrail s) (hc : s = [] → c ≠ '0') :
    NoTrail (c :: s) := by
  unfold NoTrail at *
  cases s with
  | nil => simpa using hc rfl
  | cons d s => simpa [List.getLast?_cons_cons] using hs

theorem Dec.magnitude_nonneg {s : List Char} (h : Dec s) : 0 ≤ magnitude s := by
  induction s with
  | nil => simp [magnitude]
  | cons c s ih =>
    have hb := h.digitAt_decimal 0
    rw [magnitude_head_tail]
    have := ih h.tail_dec
    simp only [List.tail_cons]
    omega


/-! ## `addUnsigned` -/

theorem addUnsignedLoop_shift (a b : List Char) (k i : Nat) (c : Int) :
    addUnsignedLoop a b k (i + 1) c = addUnsignedLoop a.tail b.tail k i c := by
  induction k generalizing i c with
  | zero => simp [addUnsignedLoop]
  | succ k ih => simp only [addUnsignedLoop, digitAt_succ]; rw [ih]

theorem addUnsignedLoop_congr {a a2 b b2 : List Char} (ha : ∀ i, digitAt a i = digitAt a2 i)
    (hb : ∀ i, digitAt b i = digitAt b2 i) (k i : Nat) (c : Int) :
    addUnsignedLoop a b k i c = addUnsignedLoop a2 b2 k i c := by
  induction k generalizing i c with
  | zero => simp [addUnsignedLoop]
  | succ k ih => simp only [addUnsignedLoop, ha, hb]; rw [ih]

theorem addUnsignedLoop_succ (a b : List Char) (k : Nat) (c : Int) :
    addUnsignedLoop a b (k + 1) 0 c =
      toChar ((digitAt a 0 + digitAt b 0 + c).tmod 10 + 48) ::
        addUnsignedLoop a.tail b.tail k 0 ((digitAt a 0 + digitAt b 0 + c).tdiv 10) := by
  simp only [addUnsignedLoop]
  rw [addUnsignedLoop_shift]

theorem addUnsignedLoop_eq_nil {a b : List Char} {k i : Nat} {c : Int}
    (h : addUnsignedLoop a b k i c = []) : k = 0 ∧ c = 0 := by
  cases k with
  | zero =>
    refine ⟨rfl, ?_⟩
    by_contra hc
    simp [addUnsignedLoop, hc] at h
  | succ k => simp [addUnsignedLoop] at h

theorem dec_singleton_toChar {v : Int} (h0 : 0 ≤ v) (h1 : v ≤ 9) : Dec [toChar (v + 48)] := by
  intro c hc
  rw [List.mem_singleton] at hc
  subst hc
  have := toNat_toChar (v := v + 48) (by omega) (by omega)
  omega

theorem dec_cons {c : Char} {s : List Char} (hc : 48 ≤ c.toNat ∧ c.toNat ≤ 57) (hs : Dec s) :
    Dec (c :: s) := by
  intro d hd
  rcases List.mem_cons.mp hd with rfl | hd
  · exact hc
  · exact hs d hd

theorem magnitude_toChar_cons {v : Int} (h0 : 0 ≤ v) (h1 : v < 80) (s : List Char) :
    magnitude (toChar (v + 48) :: s) = v + 10 * magnitude s := by
  simp only [magnitude]
  rw [ord_toChar (by omega) (by omega)]
  ring

/-- The value and the digit range of what the loop of `addUnsigned` pushes. -/
theorem addUnsignedLoop_spec (k : Nat) : ∀ (a b : List Char) (c : Int),
    a.length ≤ k → b.length ≤ k → Loose a → Dec b → 0 ≤ c → c ≤ 9 →
    magnitude (addUnsignedLoop a b k 0 c) = magnitude a + magnitude b + c ∧
      Dec (addUnsignedLoop a b k 0 c) := by
  induction k with
  | zero =>
    intro a b c ha hb _ _ h0 h9
    have ha0 : a = [] := List.length_eq_zero.mp (by omega)
    have hb0 : b = [] := List.length_eq_zero.mp (by omega)
    subst ha0 hb0
    by_cases hc : c = 0
    · subst hc
      simp [addUnsignedLoop, magnitude, Dec]
    · simp only [addUnsignedLoop, hc, ne_eq, not_false_eq_true, if_true]
      refine ⟨?_, dec_singleton_toChar h0 h9⟩
      rw [magnitude_toChar_cons h0 (by omega)]
      simp [magnitude]
  | succ k ih =>
    intro a b c ha hb hla hdb h0 h9
    have ba := hla.digitAt_bounds 0
    have bb := hdb.digitAt_decimal 0
    rw [addUnsignedLoop_succ]
    generalize hsum : digitAt a 0 + digitAt b 0 + c = sum
    have hs0 : 0 ≤ sum := by omega
    rw [Int.tmod_eq_emod hs0 (by norm_num), Int.tdiv_eq_ediv hs0 (by norm_num)]
    obtain ⟨ihm, ihd⟩ := ih a.tail b.tail (sum / 10)
      (by rw [List.length_tail]; omega) (by rw [List.length_tail]; omega)
      hla.tail hdb.tail_dec (by omega) (by omega)
    have hch := toNat_toChar (v := sum % 10 + 48) (by omega) (by omega)
    refine ⟨?_, dec_cons (by omega) ihd⟩
    rw [magnitude_toChar_cons (by omega) (by omega), ihm, magnitude_head_tail a,
      magnitude_head_tail b]
    omega

theorem digitAt_zero_pos {s : List Char} (hl : Loose s) (hn : NoTrail s) (h1 : s.length = 1) :
    1 ≤ digitAt s 0 := by
  match s, h1 with
  | [x], _ =>
    have hx := hl x (by simp)
    have hne : x ≠ '0' := by simpa [NoTrail] using hn
    rw [Ne, eq_zero_char_iff] at hne
    rw [digitAt_cons_zero, ord_ascii hx.2]
    omega

/-- The loop of `addUnsigned` leaves no most significant zero when its operands have none. -/
theorem addUnsignedLoop_noTrail (k : Nat) : ∀ (a b : List Char) (c : Int),
    a.length ≤ k → b.length ≤ k → (a.length = k ∨ b.length = k) → Loose a → Dec b →
    0 ≤ c → c ≤ 9 → NoTrail a → NoTrail b → NoTrail (addUnsignedLoop a b k 0 c) := by
  induction k with
  | zero =>
    intro a b c _ _ _ _ _ h0 h9 _ _
    by_cases hc : c = 0
    · simp [addUnsignedLoop, hc, NoTrail]
    · simp only [addUnsignedLoop, hc, ne_eq, not_false_eq_true, if_true, NoTrail,
        List.getLast?_singleton, Option.some.injEq]
      rw [toChar_eq_zero_iff h0 (by omega)]
      exact hc
  | succ k ih =>
    intro a b c ha hb hk hla hdb h0 h9 hna hnb
    have ba := hla.digitAt_bounds 0
    have bb := hdb.digitAt_decimal 0
    rw [addUnsignedLoop_succ]
    generalize hsum : digitAt a 0 + digitAt b 0 + c = sum
    have hs0 : 0 ≤ sum := by omega
    rw [Int.tmod_eq_emod hs0 (by norm_num), Int.tdiv_eq_ediv hs0 (by norm_num)]
    have hrest := ih a.tail b.tail (sum / 10)
      (by rw [List.length_tail]; omega) (by rw [List.length_tail]; omega)
      (by rw [List.length_tail, List.length_tail]; omega)
      hla.tail hdb.tail_dec (by omega) (by omega) hna.tail_noTrail hnb.tail_noTrail
    refine noTrail_cons hrest ?_
    intro hnil
    obtain ⟨hk0, hc0⟩ := addUnsignedLoop_eq_nil hnil
    subst hk0
    rw [Ne, toChar_eq_zero_iff (by omega) (by omega)]
    have hpos : 1 ≤ digitAt a 0 + digitAt b 0 := by
      rcases hk with h | h
      · have := digitAt_zero_pos hla hna h; omega
      · have := digitAt_zero_pos hdb.loose hnb h; omega
    omega

theorem digitAt_zeroString (i : Nat) : digitAt ['0'] i = digitAt [] i := by
  cases i with
  | zero => simp [digitAt, ord]
  | succ i => simp [digitAt]


/-! ## Well-formed digit strings and their magnitudes -/

theorem wfDigits_iff (ds : List Char) : wfDigits ds = true ↔ WfD ds := by
  simp [wfDigits, WfD, Dec, NoTrail, isDec, List.all_eq_true, and_assoc]

theorem wf_iff (x : BigInt) :
    x.wf = true ↔ WfD x.digits ∧ (x.digits = ['0'] → x.negative = false) := by
  unfold BigInt.wf
  rw [Bool.and_eq_true, wfDigits_iff]
  by_cases h : x.digits = ['0'] <;> simp [h]

theorem magnitude_zeroString : magnitude ['0'] = 0 := by simp [magnitude, ord]

theorem magnitude_append (xs ys : List Char) :
    magnitude (xs ++ ys) = magnitude xs + 10 ^ xs.length * magnitude ys := by
  induction xs with
  | nil => simp [magnitude]
  | cons c xs ih =>
    show magnitude (c :: (xs ++ ys)) = _
    simp only [magnitude, ih, List.length_cons, pow_succ]
    ring

theorem Dec.magnitude_lt {s : List Char} (h : Dec s) : magnitude s < 10 ^ s.length := by
  induction s with
  | nil => simp [magnitude]
  | cons c s ih =>
    have hb := h.digitAt_decimal 0
    have := ih h.tail_dec
    rw [magnitude_head_tail]
    simp only [List.tail_cons, List.length_cons, pow_succ] at *
    omega

theorem magnitude_ge_of_noTrail {s : List Char} (hd : Dec s) (hn : NoTrail s) (hne : s ≠ []) :
    (10 : Int) ^ (s.length - 1) ≤ magnitude s := by
  induction s with
  | nil => exact absurd rfl hne
  | cons c s ih =>
    have hb := hd.digitAt_decimal 0
    rw [magnitude_head_tail]
    simp only [List.tail_cons, List.length_cons, Nat.add_sub_cancel]
    by_cases hs : s = []
    · subst hs
      have := digitAt_zero_pos hd.loose hn rfl
      simp [magnitude]
      omega
    · have h1 := ih hd.tail_dec hn.tail_noTrail hs
      have hlen : s.length = (s.length - 1) + 1 := by
        have := List.length_pos.mpr hs
        omega
      rw [hlen, pow_succ]
      simp only [List.tail_cons] at h1
      omega

theorem magnitude_pos_of_noTrail {s : List Char} (hd : Dec s) (hn : NoTrail s) (hne : s ≠ []) :
    0 < magnitude s := by
  have h := magnitude_ge_of_noTrail hd hn hne
  have : (0 : Int) < 10 ^ (s.length - 1) := by positivity
  omega

theorem WfD.magnitude_eq_zero_iff {s : List Char} (h : WfD s) :
    magnitude s = 0 ↔ s = ['0'] := by
  constructor
  · intro h0
    rcases h.2.2 with hz | hn
    · exact hz
    · have := magnitude_pos_of_noTrail h.2.1 hn h.1
      omega
  · rintro rfl
    exact magnitude_zeroString

theorem WfD.magnitude_nonneg_of_wfD {s : List Char} (h : WfD s) : 0 ≤ magnitude s :=
  h.2.1.magnitude_nonneg

theorem noTrail_magnitude_inj : ∀ (a b : List Char), Dec a → Dec b → NoTrail a → NoTrail b →
    magnitude a = magnitude b → a = b := by
  intro a
  induction a with
  | nil =>
    intro b _ hdb _ hnb h
    by_contra hne
    have := magnitude_pos_of_noTrail hdb hnb (fun e => hne e.symm)
    simp [magnitude] at h
    omega
  | cons x a ih =>
    intro b hda hdb hna hnb h
    cases b with
    | nil =>
      have := magnitude_pos_of_noTrail hda hna (by simp)
      simp only [magnitude] at h this
      omega
    | cons y b =>
      have hx := hda x (by simp)
      have hy := hdb y (by simp)
      have ha := hda.tail_dec.magnitude_nonneg
      simp only [magnitude] at h
      rw [ord_ascii (by omega), ord_ascii (by omega)] at h
      have hxy : x = y := char_eq_of_toNat (by omega)
      have hab : magnitude a = magnitude b := by omega
      rw [hxy, ih b hda.tail_dec hdb.tail_dec hna.tail_noTrail hnb.tail_noTrail hab]

/-- A well-formed digit string is determined by its magnitude. -/
theorem WfD.inj {a b : List Char} (ha : WfD a) (hb : WfD b) (h : magnitude a = magnitude b) :
    a = b := by
  rcases ha.2.2 with hz | hn
  · rw [hz]
    rw [hz, magnitude_zeroString] at h
    exact (hb.magnitude_eq_zero_iff.mp h.symm).symm
  · rcases hb.2.2 with hz2 | hn2
    · rw [hz2]
      rw [hz2, magnitude_zeroString] at h
      exact ha.magnitude_eq_zero_iff.mp h
    · exact noTrail_magnitude_inj a b ha.2.1 hb.2.1 hn hn2 h

/-! ## `removeLeadingZeros` -/

theorem skipZeros_ne_nil : ∀ (l : List Char), l ≠ [] → skipZeros l ≠ []
  | [], h => h
  | [_], _ => by simp [skipZeros]
  | c :: d :: rest, _ => by
    unfold skipZeros
    split
    · exact skipZeros_ne_nil (d :: rest) (by simp)
    · simp

theorem skipZeros_mem : ∀ (l : List Char) (x : Char), x ∈ skipZeros l → x ∈ l
  | [], _, h => by simp [skipZeros] at h
  | [_], _, h => by simpa [skipZeros] using h
  | c :: d :: rest, x, h => by
    unfold skipZeros at h
    split at h
    · exact List.mem_cons_of_mem _ (skipZeros_mem (d :: rest) x h)
    · exact h

theorem skipZeros_magnitude : ∀ (l : List Char),
    magnitude (skipZeros l).reverse = magnitude l.reverse
  | [] => by simp [skipZeros]
  | [_] => by simp [skipZeros]
  | c :: d :: rest => by
    unfold skipZeros
    split
    · next h =>
      rw [skipZeros_magnitude (d :: rest), List.reverse_cons (a := c), magnitude_append, h,
        magnitude_zeroString]
      simp
    · rfl

theorem skipZeros_head : ∀ (l : List Char),
    skipZeros l = ['0'] ∨ (skipZeros l).head? ≠ some '0'
  | [] => by simp [skipZeros]
  | [c] => by
    by_cases h : c = '0'
    · left; simp [skipZeros, h]
    · right; simpa [skipZeros] using h
  | c :: d :: rest => by
    unfold skipZeros
    split
    · exact skipZeros_head (d :: rest)
    · next h => right; simpa using h

/-- After `removeLeadingZeros` the digit string is well formed and denotes the same magnitude;
the sign flag is cleared exactly when the string is the single digit zero. -/
theorem removeLeadingZeros_spec (ds : List Char) (n : Bool) (hne : ds ≠ []) (hd : Dec ds) :
    WfD (BigInt.removeLeadingZeros ⟨ds, n⟩).digits ∧
      magnitude (BigInt.removeLeadingZeros ⟨ds, n⟩).digits = magnitude ds ∧
      (BigInt.removeLeadingZeros ⟨ds, n⟩).negative =
        (if (BigInt.removeLeadingZeros ⟨ds, n⟩).digits = ['0'] then false else n) := by
  simp only [BigInt.removeLeadingZeros]
  refine ⟨⟨?_, ?_, ?_⟩, ?_, trivial⟩
  · simpa using skipZeros_ne_nil ds.reverse (by simpa using hne)
  · intro c hc
    exact hd c (by simpa using skipZeros_mem ds.reverse c (by simpa using hc))
  · rcases skipZeros_head ds.reverse with h | h
    · left; rw [h]; rfl
    · right
      unfold NoTrail
      rwa [List.getLast?_reverse]
  · rw [skipZeros_magnitude, List.reverse_reverse]


theorem addUnsigned_spec (a b : BigInt) (ha : Loose a.digits) (hb : Dec b.digits) :
    magnitude (a.addUnsigned b).digits = magnitude a.digits + magnitude b.digits ∧
      Dec (a.addUnsigned b).digits := by
  have h := addUnsignedLoop_spec (max a.digits.length b.digits.length) a.digits b.digits 0
    (le_max_left _ _) (le_max_right _ _) ha hb le_rfl (by norm_num)
  simpa [BigInt.addUnsigned] using h

theorem addUnsigned_ne_nil (a b : BigInt) (h : a.digits ≠ [] ∨ b.digits ≠ []) :
    (a.addUnsigned b).digits ≠ [] := by
  intro hnil
  have hk := (addUnsignedLoop_eq_nil hnil).1
  have h1 : a.digits.length = 0 := by have := le_max_left a.digits.length b.digits.length; omega
  have h2 : b.digits.length = 0 := by have := le_max_right a.digits.length b.digits.length; omega
  rcases h with h | h
  · exact h (List.length_eq_zero.mp h1)
  · exact h (List.length_eq_zero.mp h2)

theorem length_pos_of_ne_nil {s : List Char} (h : s ≠ []) : 1 ≤ s.length :=
  List.length_pos.mpr h

/-- The sum of a loose non-empty string without most significant zero (or the string `0`) and
a well-formed string is well formed. -/
theorem addUnsigned_wfD (a b : BigInt) (ha : Loose a.digits) (hane : a.digits ≠ [])
    (hat : a.digits = ['0'] ∨ NoTrail a.digits) (hb : WfD b.digits) :
    WfD (a.addUnsigned b).digits := by
  obtain ⟨hbne, hbd, hbt⟩ := hb
  refine ⟨addUnsigned_ne_nil a b (Or.inl hane), (addUnsigned_spec a b ha hbd).2, ?_⟩
  have hla := length_pos_of_ne_nil hane
  have hlb := length_pos_of_ne_nil hbne
  simp only [BigInt.addUnsigned]
  rcases hat with hza | hna
  · rcases hbt with hzb | hnb
    · left
      rw [hza, hzb]
      decide
    · right
      rw [hza]
      have hk : max ['0'].length b.digits.length = b.digits.length := by
        simp only [List.length_singleton]; omega
      rw [hk, addUnsignedLoop_congr digitAt_zeroString (fun _ => rfl)]
      exact addUnsignedLoop_noTrail _ [] b.digits 0 (by simp) le_rfl (Or.inr rfl)
        (by intro c hc; simp at hc) hbd le_rfl (by norm_num) (by simp [NoTrail]) hnb
  · rcases hbt with hzb | hnb
    · right
      rw [hzb]
      have hk : max a.digits.length ['0'].length = a.digits.length := by
        simp only [List.length_singleton]; omega
      rw [hk, addUnsignedLoop_congr (fun _ => rfl) digitAt_zeroString]
      exact addUnsignedLoop_noTrail _ a.digits [] 0 le_rfl (by simp) (Or.inl rfl)
        ha (by intro c hc; simp at hc) le_rfl (by norm_num) hna (by simp [NoTrail])
    · right
      refine addUnsignedLoop_noTrail _ a.digits b.digits 0 (le_max_left _ _) (le_max_right _ _)
        ?_ ha hbd le_rfl (by norm_num) hna hnb
      rcases le_total a.digits.length b.digits.length with h | h
      · right; exact (max_eq_right h).symm
      · left; exact (max_eq_left h).symm

/-! ## `subtractUnsigned` -/

theorem subtractUnsignedLoop_shift (b : List Char) : ∀ (a : List Char) (i : Nat) (br : Int),
    subtractUnsignedLoop b a (i + 1) br = subtractUnsignedLoop b.tail a i br := by
  intro a
  induction a with
  | nil => intro i br; simp [subtractUnsignedLoop]
  | cons x a ih =>
    intro i br
    simp only [subtractUnsignedLoop, digitAt_succ]
    rw [ih, ih]

/-- The loop of `subtractUnsigned`, when the minuend is at least the subtrahend plus the
incoming borrow: the digits denote the difference and the last borrow is zero. -/
theorem subtractUnsignedLoop_spec : ∀ (a b : List Char) (br : Int), Dec a → Dec b →
    0 ≤ br → br ≤ 1 → magnitude b + br ≤ magnitude a →
    magnitude (subtractUnsignedLoop b a 0 br) = magnitude a - magnitude b - br ∧
      Dec (subtractUnsignedLoop b a 0 br) ∧
      (subtractUnsignedLoop b a 0 br).length = a.length := by
  intro a
  induction a with
  | nil =>
    intro b br _ hdb h0 _ hle
    have := hdb.magnitude_nonneg
    simp only [magnitude] at hle
    simp only [subtractUnsignedLoop, magnitude]
    refine ⟨by omega, ?_, trivial⟩
    intro c hc
    simp at hc
  | cons x a ih =>
    intro b br hda hdb h0 h1 hle
    have bx := hda.digitAt_decimal 0
    have bb := hdb.digitAt_decimal 0
    have hb0 := hdb.tail_dec.magnitude_nonneg
    rw [digitAt_cons_zero] at bx
    rw [magnitude_head_tail b] at hle ⊢
    simp only [magnitude] at hle ⊢
    simp only [subtractUnsignedLoop]
    generalize ord x - 48 = d1 at *
    generalize digitAt b 0 = d2 at *
    split
    · next hneg =>
      rw [subtractUnsignedLoop_shift]
      obtain ⟨im, idec, il⟩ := ih b.tail 1 hda.tail_dec hdb.tail_dec (by norm_num) le_rfl (by omega)
      have hch := toNat_toChar (v := d1 - d2 - br + 10 + 48) (by omega) (by omega)
      refine ⟨?_, dec_cons (by omega) idec, by simp [il]⟩
      rw [magnitude_toChar_cons (by omega) (by omega), im]
      omega
    · next hpos =>
      rw [subtractUnsignedLoop_shift]
      obtain ⟨im, idec, il⟩ := ih b.tail 0 hda.tail_dec hdb.tail_dec le_rfl (by norm_num) (by omega)
      have hch := toNat_toChar (v := d1 - d2 - br + 48) (by omega) (by omega)
      refine ⟨?_, dec_cons (by omega) idec, by simp [il]⟩
      rw [magnitude_toChar_cons (by omega) (by omega), im]
      omega

theorem subtractUnsigned_spec (a b : BigInt) (ha : Dec a.digits) (hane : a.digits ≠ [])
    (hb : Dec b.digits) (hle : magnitude b.digits ≤ magnitude a.digits) :
    WfD (a.subtractUnsigned b).digits ∧
      magnitude (a.subtractUnsigned b).digits = magnitude a.digits - magnitude b.digits := by
  obtain ⟨hm, hd, hl⟩ := subtractUnsignedLoop_spec a.digits b.digits 0 ha hb le_rfl (by norm_num)
    (by omega)
  have hne : subtractUnsignedLoop b.digits a.digits 0 0 ≠ [] := by
    intro h
    rw [h] at hl
    exact hane (List.length_eq_zero.mp hl.symm)
  obtain ⟨r1, r2, _⟩ := removeLeadingZeros_spec _ false hne hd
  refine ⟨r1, ?_⟩
  unfold BigInt.subtractUnsigned
  rw [r2, hm]
  ring


/-! ## `absCompare` -/

theorem Dec.take {s : List Char} (h : Dec s) (i : Nat) : Dec (s.take i) :=
  fun c hc => h c (List.mem_of_mem_take hc)

theorem magnitude_take_succ (s : List Char) (i : Nat) (hi : i < s.length) :
    magnitude (s.take (i + 1)) = magnitude (s.take i) + 10 ^ i * (ord (s.getD i '0') - 48) := by
  rw [List.take_succ, List.getElem?_eq_getElem hi, magnitude_append, List.length_take,
    List.getD_eq_getElem _ _ hi, min_eq_left (le_of_lt hi)]
  simp [magnitude]

theorem absCompareLoop_spec (a b : List Char) (ha : Dec a) (hb : Dec b)
    (hl : a.length = b.length) : ∀ i, i ≤ a.length →
    (absCompareLoop a b i = 1 ∧ magnitude (b.take i) < magnitude (a.take i)) ∨
    (absCompareLoop a b i = 0 ∧ magnitude (a.take i) = magnitude (b.take i)) ∨
    (absCompareLoop a b i = -1 ∧ magnitude (a.take i) < magnitude (b.take i)) := by
  intro i
  induction i with
  | zero => intro _; right; left; simp [absCompareLoop, magnitude]
  | succ i ih =>
    intro hi
    have hia : i < a.length := by omega
    have hib : i < b.length := by omega
    have hx := ha (a.getD i '0') (by rw [List.getD_eq_getElem _ _ hia]; exact List.getElem_mem _)
    have hy := hb (b.getD i '0') (by rw [List.getD_eq_getElem _ _ hib]; exact List.getElem_mem _)
    have hA0 := (ha.take i).magnitude_nonneg
    have hB0 := (hb.take i).magnitude_nonneg
    have hA1 := (ha.take i).magnitude_lt
    have hB1 := (hb.take i).magnitude_lt
    rw [List.length_take, min_eq_left (le_of_lt hia)] at hA1
    rw [List.length_take, min_eq_left (le_of_lt hib)] at hB1
    rw [magnitude_take_succ a i hia, magnitude_take_succ b i hib]
    simp only [absCompareLoop]
    generalize a.getD i '0' = x at *
    generalize b.getD i '0' = y at *
    have ox := ord_ascii (c := x) (by omega)
    have oy := ord_ascii (c := y) (by omega)
    have hP : (0 : Int) < 10 ^ i := by positivity
    generalize (10 : Int) ^ i = P at *
    by_cases hxy : x = y
    · subst hxy
      simp only [ne_eq, not_true_eq_false, if_false]
      rcases ih (by omega) with h | h | h
      · left; exact ⟨h.1, by linarith [h.2]⟩
      · right; left; exact ⟨h.1, by linarith [h.2]⟩
      · right; right; exact ⟨h.1, by linarith [h.2]⟩
    · simp only [ne_eq, hxy, not_false_eq_true, if_true]
      by_cases hgt : ord x > ord y
      · left
        refine ⟨by simp [hgt], ?_⟩
        have : P * (ord y - 48 + 1) ≤ P * (ord x - 48) :=
          Int.mul_le_mul_of_nonneg_left (by omega) (le_of_lt hP)
        linarith
      · right; right
        have hne : ord x ≠ ord y := by
          intro h
          apply hxy
          apply char_eq_of_toNat
          omega
        refine ⟨by simp [hgt], ?_⟩
        have : P * (ord x - 48 + 1) ≤ P * (ord y - 48) :=
          Int.mul_le_mul_of_nonneg_left (by omega) (le_of_lt hP)
        linarith

/-- The result of `absCompare` on well-formed digit strings is the sign of the difference
of the magnitudes. -/
theorem absCompare_spec (a b : BigInt) (ha : WfD a.digits) (hb : WfD b.digits) :
    (a.absCompare b = 1 ∧ magnitude b.digits < magnitude a.digits) ∨
    (a.absCompare b = 0 ∧ magnitude a.digits = magnitude b.digits) ∨
    (a.absCompare b = -1 ∧ magnitude a.digits < magnitude b.digits) := by
  have key : ∀ (s t : List Char), WfD s → WfD t → t.length < s.length →
      magnitude t < magnitude s := by
    intro s t hs ht hlt
    have htl := length_pos_of_ne_nil ht.1
    have hn : NoTrail s := by
      rcases hs.2.2 with hz | hn
      · rw [hz] at hlt; simp only [List.length_singleton] at hlt; omega
      · exact hn
    have h1 := magnitude_ge_of_noTrail hs.2.1 hn hs.1
    have h2 := ht.2.1.magnitude_lt
    have h3 : (10 : Int) ^ t.length ≤ 10 ^ (s.length - 1) :=
      pow_le_pow_right₀ (by norm_num) (by omega)
    omega
  unfold BigInt.absCompare
  by_cases hl : a.digits.length = b.digits.length
  · simp only [hl, ne_eq, not_true_eq_false, if_false]
    have h := absCompareLoop_spec a.digits b.digits ha.2.1 hb.2.1 hl a.digits.length le_rfl
    rw [hl] at h
    rw [List.take_of_length_le (le_of_eq hl), List.take_of_length_le le_rfl] at h
    exact h
  · simp only [ne_eq, hl, not_false_eq_true, if_true]
    by_cases hgt : a.digits.length > b.digits.length
    · left; exact ⟨by simp [hgt], key _ _ ha hb hgt⟩
    · right; right; exact ⟨by simp [hgt], key _ _ hb ha (by omega)⟩


/-! ## `operator+` and `operator-` -/

theorem WfD.loose_of_wfD {s : List Char} (h : WfD s) : Loose s := h.2.1.loose

/-- The method `operator+` on operands with well-formed digit strings (the sign flag of a zero
operand may be set, as it is for the operand built by `operator-`): the result has a
well-formed digit string, denotes the sum, and is not a negative zero unless the left operand
is one. -/
theorem add_spec (a b : BigInt) (ha : WfD a.digits) (hb : WfD b.digits) :
    WfD (a.add b).digits ∧ (a.add b).toInt = a.toInt + b.toInt ∧
      ((a.digits = ['0'] → a.negative = false) →
        ((a.add b).digits = ['0'] → (a.add b).negative = false)) := by
  obtain ⟨da, na⟩ := a
  obtain ⟨db, nb⟩ := b
  simp only at ha hb
  have hA0 := ha.magnitude_nonneg_of_wfD
  have hB0 := hb.magnitude_nonneg_of_wfD
  have hadd := addUnsigned_spec ⟨da, na⟩ ⟨db, nb⟩ ha.loose_of_wfD hb.2.1
  have haddw := addUnsigned_wfD ⟨da, na⟩ ⟨db, nb⟩ ha.loose_of_wfD ha.1 ha.2.2 hb
  have hcmp := absCompare_spec ⟨da, na⟩ ⟨db, nb⟩ ha hb
  have hsub1 := subtractUnsigned_spec ⟨da, na⟩ ⟨db, nb⟩ ha.2.1 ha.1 hb.2.1
  have hsub2 := subtractUnsigned_spec ⟨db, nb⟩ ⟨da, na⟩ hb.2.1 hb.1 ha.2.1
  simp only at hadd haddw hcmp hsub1 hsub2
  cases na <;> cases nb
  · -- both non-negative
    simp only [BigInt.add, Bool.not_false, Bool.and_self, if_true, BigInt.toInt]
    refine ⟨haddw, ?_, fun _ _ => rfl⟩
    simp only [BigInt.addUnsigned, Bool.false_eq_true, if_false] at hadd ⊢
    exact hadd.1
  · -- non-negative plus negative
    rcases hcmp with ⟨hc, hm⟩ | ⟨hc, hm⟩ | ⟨hc, hm⟩
    · obtain ⟨w, m⟩ := hsub1 (by omega)
      simp [BigInt.add, hc, BigInt.toInt, w, m]
      ring
    · obtain ⟨w, m⟩ := hsub1 (by omega)
      simp [BigInt.add, hc, BigInt.toInt, w, m]
      ring
    · obtain ⟨w, m⟩ := hsub2 (by omega)
      simp only [BigInt.add, hc, BigInt.toInt, Bool.not_false, Bool.and_true, Bool.and_false,
        Bool.false_eq_true, if_false, Bool.not_true, if_true, Bool.and_self]
      refine ⟨by simpa using w, by simp [m]; ring, ?_⟩
      intro _ hz
      exfalso
      have := w.magnitude_eq_zero_iff.mpr (by simpa using hz)
      omega
  · -- negative plus non-negative
    rcases hcmp with ⟨hc, hm⟩ | ⟨hc, hm⟩ | ⟨hc, hm⟩
    · obtain ⟨w, m⟩ := hsub1 (by omega)
      simp only [BigInt.add, hc, BigInt.toInt, Bool.not_false, Bool.and_true, Bool.and_false,
        Bool.false_eq_true, if_false, Bool.not_true, if_true, Bool.and_self]
      refine ⟨by simpa using w, by simp [m]; ring, ?_⟩
      intro _ hz
      exfalso
      have := w.magnitude_eq_zero_iff.mpr (by simpa using hz)
      omega
    · obtain ⟨w, m⟩ := hsub2 (by omega)
      simp [BigInt.add, hc, BigInt.toInt, w, m]
      ring
    · obtain ⟨w, m⟩ := hsub2 (by omega)
      simp [BigInt.add, hc, BigInt.toInt, w, m]
      ring
  · -- both negative
    simp only [BigInt.add, Bool.not_true, Bool.and_self, Bool.false_eq_true, if_false, if_true,
      BigInt.toInt]
    refine ⟨haddw, ?_, ?_⟩
    · simp only [BigInt.addUnsigned] at hadd ⊢
      rw [hadd.1]
      ring
    · intro hz0 hz
      exfalso
      have h1 := haddw.magnitude_eq_zero_iff.mpr hz
      have h2 : magnitude da = 0 := by
        simp only [BigInt.addUnsigned] at hadd h1
        omega
      have := hz0 (ha.magnitude_eq_zero_iff.mp h2)
      simp at this


theorem toInt_inj {a b : BigInt} (ha : a.wf = true) (hb : b.wf = true)
    (h : a.toInt = b.toInt) : a = b := by
  rw [wf_iff] at ha hb
  obtain ⟨da, na⟩ := a
  obtain ⟨db, nb⟩ := b
  obtain ⟨wa, sa⟩ := ha
  obtain ⟨wb, sb⟩ := hb
  simp only at wa sa wb sb
  have hA0 := wa.magnitude_nonneg_of_wfD
  have hB0 := wb.magnitude_nonneg_of_wfD
  have za := wa.magnitude_eq_zero_iff
  have zb := wb.magnitude_eq_zero_iff
  cases na <;> cases nb <;> simp only [BigInt.toInt, Bool.false_eq_true, if_false, if_true] at h
  · rw [WfD.inj wa wb h]
  · have h0 : magnitude db = 0 := by omega
    exact absurd (sb (zb.mp h0)) (by decide)
  · have h0 : magnitude da = 0 := by omega
    exact absurd (sa (za.mp h0)) (by decide)
  · rw [WfD.inj wa wb (by omega)]

theorem add_wf {a b : BigInt} (ha : a.wf = true) (hb : WfD b.digits) : (a.add b).wf = true := by
  rw [wf_iff] at ha ⊢
  obtain ⟨w, _, s⟩ := add_spec a b ha.1 hb
  exact ⟨w, s ha.2⟩

theorem add_toInt {a b : BigInt} (ha : a.wf = true) (hb : b.wf = true) :
    (a.add b).toInt = a.toInt + b.toInt :=
  (add_spec a b ((wf_iff a).mp ha).1 ((wf_iff b).mp hb).1).2.1

theorem sub_wf {a b : BigInt} (ha : a.wf = true) (hb : b.wf = true) : (a.sub b).wf = true :=
  add_wf ha ((wf_iff b).mp hb).1

theorem sub_toInt {a b : BigInt} (ha : a.wf = true) (hb : b.wf = true) :
    (a.sub b).toInt = a.toInt - b.toInt := by
  have h := (add_spec a ⟨b.digits, !b.negative⟩ ((wf_iff a).mp ha).1 ((wf_iff b).mp hb).1).2.1
  unfold BigInt.sub
  rw [h]
  cases hn : b.negative <;> simp [BigInt.toInt, hn]; ring

/-! ## `multiplyDigit` and `operator*` -/

theorem ofString_zero : BigInt.ofString ['0'] = ⟨['0'], false⟩ := by decide

theorem loose_cons {c : Char} {s : List Char} (hc : 48 ≤ c.toNat ∧ c.toNat ≤ 127)
    (hs : Loose s) : Loose (c :: s) := by
  intro d hd
  rcases List.mem_cons.mp hd with rfl | hd
  · exact hc
  · exact hs d hd

/-- The loop of `multiplyDigit` with a multiplier up to 36: the characters pushed denote the
product plus the incoming carry; they are decimal digits when the multiplier is a digit. -/
theorem multiplyDigitLoop_spec (m : Int) (hm0 : 0 ≤ m) (hm : m ≤ 36) : ∀ (ds : List Char)
    (c : Int), Dec ds → 0 ≤ c → c ≤ 35 →
    magnitude (multiplyDigitLoop m ds c) = magnitude ds * m + c ∧
      Loose (multiplyDigitLoop m ds c) ∧
      (m ≤ 9 → c ≤ 8 → Dec (multiplyDigitLoop m ds c)) := by
  intro ds
  induction ds with
  | nil =>
    intro c _ h0 h1
    by_cases hc : c = 0
    · subst hc
      simp [multiplyDigitLoop, magnitude, Dec, Loose]
    · simp only [multiplyDigitLoop, hc, ne_eq, not_false_eq_true, if_true]
      have hch := toNat_toChar (v := c + 48) (by omega) (by omega)
      refine ⟨?_, ?_, ?_⟩
      · rw [magnitude_toChar_cons h0 (by omega)]
        simp [magnitude]
      · exact loose_cons (by omega) (by intro d hd; simp at hd)
      · intro _ h8
        exact dec_singleton_toChar h0 (by omega)
  | cons x ds ih =>
    intro c hd h0 h1
    have bx := hd.digitAt_decimal 0
    rw [digitAt_cons_zero] at bx
    rw [show magnitude (x :: ds) = (ord x - 48) + 10 * magnitude ds from rfl]
    simp only [multiplyDigitLoop]
    generalize ord x - 48 = d at *
    have hp0 : 0 ≤ d * m := mul_nonneg bx.1 hm0
    have hp1 : d * m ≤ 9 * 36 := mul_le_mul bx.2 hm hm0 (by norm_num)
    have hp2 : m ≤ 9 → d * m ≤ 9 * 9 := fun h => mul_le_mul bx.2 h hm0 (by norm_num)
    generalize hprod : d * m + c = prod
    have hs0 : 0 ≤ prod := by omega
    rw [Int.tmod_eq_emod hs0 (by norm_num), Int.tdiv_eq_ediv hs0 (by norm_num)]
    obtain ⟨im, il, idec⟩ := ih (prod / 10) hd.tail_dec (by omega) (by omega)
    have hch := toNat_toChar (v := prod % 10 + 48) (by omega) (by omega)
    refine ⟨?_, loose_cons (by omega) il, ?_⟩
    · rw [magnitude_toChar_cons (by omega) (by omega), im]
      have e1 : prod % 10 + 10 * (prod / 10) = prod := by omega
      linear_combination e1 - hprod
    · intro h9 h8
      have := hp2 h9
      exact dec_cons (by omega) (idec h9 (by omega))

theorem multiplyDigitLoop_eq_nil {m : Int} {ds : List Char} {c : Int}
    (h : multiplyDigitLoop m ds c = []) : ds = [] ∧ c = 0 := by
  cases ds with
  | nil =>
    refine ⟨rfl, ?_⟩
    by_contra hc
    simp [multiplyDigitLoop, hc] at h
  | cons x ds => simp [multiplyDigitLoop] at h

theorem multiplyDigitLoop_noTrail (m : Int) (hm0 : 1 ≤ m) (hm : m ≤ 36) : ∀ (ds : List Char)
    (c : Int), Dec ds → NoTrail ds → 0 ≤ c → c ≤ 35 → NoTrail (multiplyDigitLoop m ds c) := by
  intro ds
  induction ds with
  | nil =>
    intro c _ _ h0 h1
    by_cases hc : c = 0
    · simp [multiplyDigitLoop, hc, NoTrail]
    · simp only [multiplyDigitLoop, hc, ne_eq, not_false_eq_true, if_true, NoTrail,
        List.getLast?_singleton, Option.some.injEq]
      rw [toChar_eq_zero_iff h0 (by omega)]
      exact hc
  | cons x ds ih =>
    intro c hd hn h0 h1
    have bx := hd.digitAt_decimal 0
    rw [digitAt_cons_zero] at bx
    have hx1 : ds = [] → 1 ≤ ord x - 48 := by
      intro h
      subst h
      have := digitAt_zero_pos hd.loose hn rfl
      rwa [digitAt_cons_zero] at this
    simp only [multiplyDigitLoop]
    generalize ord x - 48 = d at *
    have hp0 : 0 ≤ d * m := mul_nonneg bx.1 (by omega)
    have hp1 : d * m ≤ 9 * 36 := mul_le_mul bx.2 hm (by omega) (by norm_num)
    have hp3 : 1 ≤ d → 1 ≤ d * m := fun h => by nlinarith
    generalize hprod : d * m + c = prod
    have hs0 : 0 ≤ prod := by omega
    rw [Int.tmod_eq_emod hs0 (by norm_num), Int.tdiv_eq_ediv hs0 (by norm_num)]
    refine noTrail_cons (ih (prod / 10) hd.tail_dec hn.tail_noTrail (by omega) (by omega)) ?_
    intro hnil
    obtain ⟨hds, hc0⟩ := multiplyDigitLoop_eq_nil hnil
    have := hp3 (hx1 hds)
    rw [Ne, toChar_eq_zero_iff (by omega) (by omega)]
    omega

theorem multiplyDigit_spec (x : BigInt) (d : Int) (hx : Dec x.digits) (h0 : 0 ≤ d)
    (h9 : d ≤ 9) :
    magnitude (x.multiplyDigit d).digits = magnitude x.digits * d ∧
      Dec (x.multiplyDigit d).digits ∧ (x.multiplyDigit d).negative = false := by
  unfold BigInt.multiplyDigit
  by_cases hd : d = 0
  · subst hd
    simp only [if_true, ofString_zero, magnitude_zeroString]
    refine ⟨by ring, ?_, trivial⟩
    intro c hc
    simp only [List.mem_singleton] at hc
    subst hc
    decide
  · simp only [hd, if_false]
    obtain ⟨m, _, dec⟩ := multiplyDigitLoop_spec d h0 (by omega) x.digits 0 hx le_rfl
      (by norm_num)
    exact ⟨by simpa using m, dec h9 (by norm_num), trivial⟩

theorem magnitude_replicate_zero (i : Nat) : magnitude (List.replicate i '0') = 0 := by
  induction i with
  | zero => simp [magnitude]
  | succ i ih =>
    simp only [List.replicate_succ, magnitude, ih]
    simp [ord]

theorem dec_replicate_zero (i : Nat) : Dec (List.replicate i '0') := by
  intro c hc
  rw [List.eq_of_mem_replicate hc]
  decide

theorem dec_append {s t : List Char} (hs : Dec s) (ht : Dec t) : Dec (s ++ t) := by
  intro c hc
  rcases List.mem_append.mp hc with h | h
  · exact hs c h
  · exact ht c h

/-- The loop of `operator*`: the accumulator stays a non-negative, non-empty decimal string
and gains the magnitude of the multiplicand times the digits still to be read, shifted. -/
theorem mulLoop_spec (x : BigInt) (hx : Dec x.digits) : ∀ (ds : List Char) (i : Nat)
    (result : BigInt), Dec ds → Dec result.digits → result.digits ≠ [] →
    result.negative = false →
    Dec (BigInt.mulLoop x ds i result).digits ∧ (BigInt.mulLoop x ds i result).digits ≠ [] ∧
      (BigInt.mulLoop x ds i result).negative = false ∧
      magnitude (BigInt.mulLoop x ds i result).digits =
        magnitude result.digits + 10 ^ i * (magnitude x.digits * magnitude ds) := by
  intro ds
  induction ds with
  | nil =>
    intro i result _ hr hne hneg
    simp [BigInt.mulLoop, magnitude, hr, hne, hneg]
  | cons d ds ih =>
    intro i result hds hr hne hneg
    have bd := hds.digitAt_decimal 0
    rw [digitAt_cons_zero] at bd
    obtain ⟨pm, pdec, pneg⟩ := multiplyDigit_spec x (ord d - 48) hx bd.1 bd.2
    simp only [BigInt.mulLoop]
    have hadd : result.add ⟨List.replicate i '0' ++ (x.multiplyDigit (ord d - 48)).digits,
        (x.multiplyDigit (ord d - 48)).negative⟩ =
        result.addUnsigned ⟨List.replicate i '0' ++ (x.multiplyDigit (ord d - 48)).digits,
        (x.multiplyDigit (ord d - 48)).negative⟩ := by
      simp [BigInt.add, hneg, pneg]
    rw [hadd]
    have hsd : Dec (List.replicate i '0' ++ (x.multiplyDigit (ord d - 48)).digits) :=
      dec_append (dec_replicate_zero i) pdec
    obtain ⟨am, adec⟩ := addUnsigned_spec result
      ⟨List.replicate i '0' ++ (x.multiplyDigit (ord d - 48)).digits,
        (x.multiplyDigit (ord d - 48)).negative⟩ hr.loose hsd
    obtain ⟨r1, r2, r3, r4⟩ := ih (i + 1) _ hds.tail_dec adec
      (addUnsigned_ne_nil _ _ (Or.inl hne)) rfl
    refine ⟨r1, r2, r3, ?_⟩
    rw [r4, am]
    simp only [magnitude_append, magnitude_replicate_zero, List.length_replicate, pm, magnitude,
      List.tail_cons, pow_succ]
    ring

/-- The method `operator*` on operands with well-formed digit strings: the result is well
formed (never a negative zero), its magnitude is the product of the magnitudes and it denotes
the product. -/
theorem mul_spec (a b : BigInt) (ha : WfD a.digits) (hb : WfD b.digits) :
    (a.mul b).wf = true ∧ magnitude (a.mul b).digits = magnitude a.digits * magnitude b.digits ∧
      (a.mul b).toInt = a.toInt * b.toInt ∧
      (a.mul b).negative = (if (a.mul b).digits = ['0'] then false
        else (a.negative != b.negative)) := by
  obtain ⟨l1, l2, _, l4⟩ := mulLoop_spec a ha.2.1 b.digits 0 (BigInt.ofString ['0']) hb.2.1
    (by rw [ofString_zero]; exact dec_replicate_zero 1) (by rw [ofString_zero]; simp)
    (by rw [ofString_zero])
  obtain ⟨r1, r2, r3⟩ := removeLeadingZeros_spec _ (a.negative != b.negative) l2 l1
  have hz0 : magnitude (BigInt.ofString ['0']).digits = 0 := by
    rw [ofString_zero]; exact magnitude_zeroString
  rw [hz0] at l4
  simp only [pow_zero, one_mul, zero_add] at l4
  have hmag : magnitude (a.mul b).digits = magnitude a.digits * magnitude b.digits := by
    unfold BigInt.mul
    rw [r2, l4]
  have hneg : (a.mul b).negative = (if (a.mul b).digits = ['0'] then false
        else (a.negative != b.negative)) := r3
  have hw : WfD (a.mul b).digits := r1
  refine ⟨?_, hmag, ?_, hneg⟩
  · rw [wf_iff]
    refine ⟨hw, fun h => ?_⟩
    rw [hneg, if_pos h]
  · have hz := hw.magnitude_eq_zero_iff
    unfold BigInt.toInt
    rw [hneg, hmag]
    by_cases h0 : (a.mul b).digits = ['0']
    · have := hz.mpr h0
      rw [hmag] at this
      rw [if_pos h0]
      simp only [Bool.false_eq_true, if_false]
      rcases mul_eq_zero.mp this with h | h <;> simp [h]
    · rw [if_neg h0]
      cases a.negative <;> cases b.negative <;> simp


/-! ## The constructor and `print` -/

theorem dropWhile_zero_cons (l : List Char) :
    ('0' :: l).dropWhile (fun c => c == '0') = l.dropWhile (fun c => c == '0') := by
  simp [List.dropWhile_cons]

theorem dropWhile_ne_cons {c : Char} (h : c ≠ '0') (l : List Char) :
    (c :: l).dropWhile (fun c => c == '0') = c :: l := by
  simp [List.dropWhile_cons, h]

theorem skipZeros_eq_dropWhile : ∀ (l : List Char), l ≠ [] →
    skipZeros l = if l.dropWhile (fun c => c == '0') = [] then ['0']
      else l.dropWhile (fun c => c == '0')
  | [], h => absurd rfl h
  | [c], _ => by
    by_cases h : c = '0'
    · subst h
      rw [dropWhile_zero_cons]
      simp [skipZeros]
    · rw [dropWhile_ne_cons h]
      simp [skipZeros]
  | c :: d :: rest, _ => by
    unfold skipZeros
    by_cases h : c = '0'
    · subst h
      rw [if_pos rfl, skipZeros_eq_dropWhile (d :: rest) (by simp), dropWhile_zero_cons]
    · rw [if_neg h, dropWhile_ne_cons h]
      simp

theorem dropWhile_zero_ne : ∀ (l : List Char), l.dropWhile (fun c => c == '0') ≠ ['0']
  | [] => by simp
  | c :: l => by
    by_cases h : c = '0'
    · subst h
      rw [dropWhile_zero_cons]
      exact dropWhile_zero_ne l
    · rw [dropWhile_ne_cons h]
      intro e
      exact h (List.cons.inj e).1

theorem reverse_eq_singleton {l : List Char} {c : Char} : l.reverse = [c] ↔ l = [c] := by
  constructor
  · intro h
    have := congrArg List.reverse h
    simpa using this
  · rintro rfl; rfl

/-- The characters written by `print` for `BigInt(s)`, for any string with at least one
character after the optional sign. -/
theorem print_ofString (s : List Char)
    (h : (if s.head? = some '-' then s.tail else s) ≠ []) :
    (BigInt.ofString s).print = canonicalForm s := by
  cases s with
  | nil => simp at h
  | cons c cs =>
    by_cases hc : c = '-'
    · subst hc
      have hcs : cs ≠ [] := by simpa using h
      have hk := skipZeros_eq_dropWhile cs hcs
      have hne := dropWhile_zero_ne cs
      simp only [BigInt.ofString, BigInt.print, canonicalForm, List.head?_cons, List.tail_cons,
        if_true, decide_True, List.reverse_reverse, reverse_eq_singleton]
      by_cases hd : cs.dropWhile (fun c => c == '0') = []
      · rw [hd] at hk
        simp [hk, hd]
      · rw [if_neg hd] at hk
        simp [hk, hd, hne]
    · have hk := skipZeros_eq_dropWhile (c :: cs) (by simp)
      have hh : ¬ (some c = some '-') := by simpa using hc
      simp only [BigInt.ofString, BigInt.print, canonicalForm, List.head?_cons, hc, hh,
        if_false, decide_False, List.reverse_reverse, reverse_eq_singleton]
      by_cases hd : (c :: cs).dropWhile (fun c => c == '0') = []
      · rw [hd] at hk
        simp [hk, hd]
      · rw [if_neg hd] at hk
        simp [hk, hd]

theorem dec_of_all {s : List Char} (h : s.all isDec = true) : Dec s := by
  intro c hc
  have := List.all_eq_true.mp h c hc
  simpa [isDec] using this

/-- The constructor on a valid decimal string is `removeLeadingZeros` of the reversed digits
with the sign read from the first character. -/
theorem ofString_eq (s : List Char) (h : s ≠ []) :
    BigInt.ofString s = BigInt.removeLeadingZeros
      ⟨(if s.head? = some '-' then s.tail else s).reverse, decide (s.head? = some '-')⟩ := by
  cases s with
  | nil => exact absurd rfl h
  | cons c cs =>
    by_cases hc : c = '-'
    · subst hc
      simp [BigInt.ofString, BigInt.removeLeadingZeros]
    · simp [BigInt.ofString, BigInt.removeLeadingZeros, hc]

theorem ofString_wf (s : List Char) (h : validDecimal s = true) : (BigInt.ofString s).wf = true := by
  simp only [validDecimal, Bool.and_eq_true, decide_eq_true_eq] at h
  obtain ⟨hne, hall⟩ := h
  have hs : s ≠ [] := by
    intro e; subst e; simp at hne
  rw [ofString_eq s hs, wf_iff]
  have hd : Dec (if s.head? = some '-' then s.tail else s).reverse := by
    intro c hc
    exact dec_of_all hall c (by simpa using hc)
  obtain ⟨w, _, n⟩ := removeLeadingZeros_spec _ (decide (s.head? = some '-'))
    (by simpa using hne) hd
  refine ⟨w, fun hz => ?_⟩
  rw [n, if_pos hz]


/-! ## `mulBaseAdd` and `convertToDecimal` -/

/-- The operand `BigInt(to_string(digit))` of `mulBaseAdd` for a digit value in `0..35`. -/
theorem ofString_to_string (d : Int) (h0 : 0 ≤ d) (h1 : d ≤ 35) :
    (BigInt.ofString (to_string d)).wf = true ∧
      (BigInt.ofString (to_string d)).negative = false ∧
      magnitude (BigInt.ofString (to_string d)).digits = d := by
  interval_cases d <;> decide

theorem multiplyDigitLoop_zeroString (m : Int) : multiplyDigitLoop m ['0'] 0 = ['0'] := by
  simp [multiplyDigitLoop, ord, toChar]

/-- One step of the conversion: `mulBaseAdd` on a well-formed non-negative accumulator. -/
theorem mulBaseAdd_spec (x : BigInt) (base digit : Int) (hx : x.wf = true)
    (hb2 : 2 ≤ base) (hb36 : base ≤ 36) (hd0 : 0 ≤ digit)
    (hd35 : digit ≤ 35) :
    (x.mulBaseAdd base digit).wf = true ∧ (x.mulBaseAdd base digit).negative = false ∧
      magnitude (x.mulBaseAdd base digit).digits = magnitude x.digits * base + digit := by
  obtain ⟨dw, dn, dm⟩ := ofString_to_string digit hd0 hd35
  rw [wf_iff] at hx dw
  obtain ⟨⟨xne, xdec, xt⟩, _⟩ := hx
  obtain ⟨pm, pl, _⟩ := multiplyDigitLoop_spec base (by omega) hb36 x.digits 0 xdec le_rfl
    (by norm_num)
  have hbase : base ≠ 0 := by omega
  have hmul : x.mulInt base = ⟨multiplyDigitLoop base x.digits 0, false⟩ := by
    simp [BigInt.mulInt, BigInt.multiplyDigit, hbase]
  have hadd : (x.mulBaseAdd base digit) =
      BigInt.addUnsigned ⟨multiplyDigitLoop base x.digits 0, false⟩
        (BigInt.ofString (to_string digit)) := by
    simp [BigInt.mulBaseAdd, hmul, BigInt.add, dn]
  have pne : multiplyDigitLoop base x.digits 0 ≠ [] := by
    intro h
    exact xne (multiplyDigitLoop_eq_nil h).1
  have pt : multiplyDigitLoop base x.digits 0 = ['0'] ∨
      NoTrail (multiplyDigitLoop base x.digits 0) := by
    rcases xt with hz | hn
    · left; rw [hz]; exact multiplyDigitLoop_zeroString base
    · right
      exact multiplyDigitLoop_noTrail base (by omega) hb36 x.digits 0 xdec hn le_rfl (by norm_num)
  have w := addUnsigned_wfD ⟨multiplyDigitLoop base x.digits 0, false⟩
    (BigInt.ofString (to_string digit)) pl pne pt dw.1
  have s := addUnsigned_spec ⟨multiplyDigitLoop base x.digits 0, false⟩
    (BigInt.ofString (to_string digit)) pl dw.1.2.1
  rw [hadd]
  refine ⟨?_, rfl, ?_⟩
  · rw [wf_iff]
    exact ⟨w, fun _ => rfl⟩
  · rw [s.1, dm]
    simp only [pm]
    ring

/-- The digit computed by `convertToDecimal` for a character of `[0-9a-zA-Z]`. -/
theorem convert_digit (c : Char) (h : isAlnum c = true) :
    (if isdigit (ord c) then ord c - 48 else 10 + (tolower (ord c) - 97)) = digitValue c ∧
      0 ≤ digitValue c ∧ digitValue c ≤ 35 := by
  simp only [isAlnum, Bool.or_eq_true, Bool.and_eq_true, decide_eq_true_eq] at h
  have ho : ord c = (c.toNat : Int) := ord_ascii (by omega)
  rw [ho]
  unfold digitValue isdigit tolower
  by_cases h1 : 48 ≤ c.toNat ∧ c.toNat ≤ 57
  · have e1 : (48 : Int) ≤ c.toNat := by omega
    have e2 : (c.toNat : Int) ≤ 57 := by omega
    simp [h1, e1, e2]
    omega
  · by_cases h2 : 97 ≤ c.toNat ∧ c.toNat ≤ 122
    · have e1 : ¬ ((48 : Int) ≤ c.toNat ∧ (c.toNat : Int) ≤ 57) := by omega
      have e2 : ¬ ((65 : Int) ≤ c.toNat ∧ (c.toNat : Int) ≤ 90) := by omega
      simp only [Bool.and_eq_true, decide_eq_true_eq, e1, e2, h1, h2, if_false, and_self, if_true]
      omega
    · have h3 : 65 ≤ c.toNat ∧ c.toNat ≤ 90 := by omega
      have e1 : ¬ ((48 : Int) ≤ c.toNat ∧ (c.toNat : Int) ≤ 57) := by omega
      have e2 : ((65 : Int) ≤ c.toNat ∧ (c.toNat : Int) ≤ 90) := by omega
      simp only [Bool.and_eq_true, decide_eq_true_eq, e1, e2, h1, h2, h3, if_false, and_self, if_true]
      omega

theorem convert_fold (base : Int) (hb2 : 2 ≤ base) (hb36 : base ≤ 36) : ∀ (s : List Char)
    (num : BigInt), (∀ c ∈ s, isAlnum c = true) → num.wf = true → num.negative = false →
    let r := s.foldl (fun num c => num.mulBaseAdd base
      (if isdigit (ord c) then ord c - 48 else 10 + (tolower (ord c) - 97))) num
    r.wf = true ∧ r.negative = false ∧
      magnitude r.digits =
        s.foldl (fun acc c => acc * base + digitValue c) (magnitude num.digits) := by
  intro s
  induction s with
  | nil => intro num _ hw hn; exact ⟨hw, hn, rfl⟩
  | cons c s ih =>
    intro num hs hw hn
    obtain ⟨e, d0, d35⟩ := convert_digit c (hs c (by simp))
    obtain ⟨w, n, m⟩ := mulBaseAdd_spec num base (digitValue c) hw hb2 hb36 d0 d35
    simp only [List.foldl_cons, e]
    have := ih (num.mulBaseAdd base (digitValue c)) (fun x hx => hs x (by simp [hx])) w n
    simp only [m] at this
    exact this


/-! ## `multiplyPoly` -/

theorem getD_set {α : Type} (l : List α) (i j : Nat) (v d : α) :
    (l.set i v).getD j d = if i = j ∧ j < l.length then v else l.getD j d := by
  rw [List.getD_eq_getElem?_getD, List.getD_eq_getElem?_getD, List.getElem?_set]
  by_cases hij : i = j
  · subst hij
    by_cases hl : i < l.length
    · simp [hl]
    · simp [hl, List.getElem?_eq_none (not_lt.mp hl)]
  · simp [hij]

theorem polyEntry_next (poly : List BigInt) (root : BigInt) (m : Nat) :
    polyEntry poly root m (m + 1) = BigInt.ofString ['0'] := by
  simp [polyEntry]

theorem polyEntry_succ_last (poly : List BigInt) (root : BigInt) (m : Nat) :
    polyEntry poly root (m + 1) (m + 1) =
      (BigInt.ofString ['0']).sub ((poly.getD m (BigInt.ofString ['0'])).mul root) := by
  simp [polyEntry]

theorem polyEntry_succ_at (poly : List BigInt) (root : BigInt) (m : Nat) :
    polyEntry poly root (m + 1) m =
      (polyEntry poly root m m).add (poly.getD m (BigInt.ofString ['0'])) := by
  by_cases h0 : m = 0
  · subst h0
    simp [polyEntry]
  · have : 0 < m := Nat.pos_of_ne_zero h0
    simp [polyEntry, h0, this]

theorem polyEntry_succ_other (poly : List BigInt) (root : BigInt) {m j : Nat} (h1 : m ≠ j)
    (h2 : m + 1 ≠ j) : polyEntry poly root (m + 1) j = polyEntry poly root m j := by
  by_cases h3 : j < m
  · have : j < m + 1 := by omega
    simp [polyEntry, h3, this]
  · have h4 : ¬ j < m + 1 := by omega
    have h5 : ¬ j = m := fun h => h1 h.symm
    have h6 : ¬ j = m + 1 := fun h => h2 h.symm
    simp [polyEntry, h3, h4, h5, h6]

/-- The state of the vector `result` after `m` iterations of the loop of `multiplyPoly`. -/
theorem multiplyPoly_loop (poly : List BigInt) (root : BigInt) : ∀ m, m ≤ poly.length →
    ((List.range m).foldl
      (fun result i =>
        let zero := BigInt.ofString ['0']
        let result := result.set i ((result.getD i zero).add (poly.getD i zero))
        result.set (i + 1) ((result.getD (i + 1) zero).sub ((poly.getD i zero).mul root)))
      (List.replicate (poly.length + 1) (BigInt.ofString ['0']))).length = poly.length + 1 ∧
    ∀ j, ((List.range m).foldl
      (fun result i =>
        let zero := BigInt.ofString ['0']
        let result := result.set i ((result.getD i zero).add (poly.getD i zero))
        result.set (i + 1) ((result.getD (i + 1) zero).sub ((poly.getD i zero).mul root)))
      (List.replicate (poly.length + 1) (BigInt.ofString ['0']))).getD j (BigInt.ofString ['0'])
      = polyEntry poly root m j := by
  intro m
  induction m with
  | zero =>
    intro _
    refine ⟨by simp, fun j => ?_⟩
    simp only [List.range_zero, List.foldl_nil, polyEntry]
    rw [List.getD_eq_getElem?_getD, List.getElem?_replicate]
    by_cases hj : j < poly.length + 1 <;> simp [hj]
  | succ m ih =>
    intro hm
    obtain ⟨hlen, hget⟩ := ih (by omega)
    rw [List.range_succ, List.foldl_append]
    generalize (List.range m).foldl _ _ = res at hlen hget
    simp only [List.foldl_cons, List.foldl_nil]
    refine ⟨by simp [hlen], fun j => ?_⟩
    rw [getD_set, getD_set, getD_set, List.length_set, hlen, hget, hget]
    rw [if_neg (by omega : ¬ (m = m + 1 ∧ m + 1 < poly.length + 1)), polyEntry_next]
    by_cases h1 : m + 1 = j
    · subst h1
      rw [if_pos ⟨rfl, by omega⟩, polyEntry_succ_last]
    · rw [if_neg (fun h => h1 h.1)]
      by_cases h2 : m = j
      · subst h2
        rw [if_pos ⟨rfl, by omega⟩, polyEntry_succ_at]
      · rw [if_neg (fun h => h2 h.1), hget, polyEntry_succ_other _ _ h2 h1]

theorem multiplyPoly_length (poly : List BigInt) (root : BigInt) :
    (multiplyPoly poly root).length = poly.length + 1 :=
  (multiplyPoly_loop poly root poly.length le_rfl).1

theorem multiplyPoly_getD (poly : List BigInt) (root : BigInt) (j : Nat) :
    (multiplyPoly poly root).getD j (BigInt.ofString ['0']) =
      polyEntry poly root poly.length j :=
  (multiplyPoly_loop poly root poly.length le_rfl).2 j


theorem zero_wf : (BigInt.ofString ['0']).wf = true := by decide

theorem zero_toInt : (BigInt.ofString ['0']).toInt = 0 := by decide

theorem mul_wf {a b : BigInt} (ha : a.wf = true) (hb : b.wf = true) : (a.mul b).wf = true :=
  (mul_spec a b ((wf_iff a).mp ha).1 ((wf_iff b).mp hb).1).1

theorem mul_toInt {a b : BigInt} (ha : a.wf = true) (hb : b.wf = true) :
    (a.mul b).toInt = a.toInt * b.toInt :=
  (mul_spec a b ((wf_iff a).mp ha).1 ((wf_iff b).mp hb).1).2.2.1

theorem getD_wf {P : List BigInt} (hP : ∀ x ∈ P, x.wf = true) (j : Nat) :
    (P.getD j (BigInt.ofString ['0'])).wf = true := by
  rw [List.getD_eq_getElem?_getD]
  cases h : P[j]? with
  | none => exact zero_wf
  | some x => exact hP x (List.getElem?_mem h)

theorem coefVal_nat (P : List BigInt) (j : Nat) :
    coefVal P (j : Int) = (P.getD j (BigInt.ofString ['0'])).toInt := by
  unfold coefVal
  rw [if_pos (by omega), Int.toNat_ofNat, List.getD_eq_getElem?_getD, List.getD_eq_getElem?_getD,
    List.getElem?_map]
  cases P[j]? with
  | none => exact zero_toInt.symm
  | some x => rfl

theorem coefVal_length (P : List BigInt) : coefVal P (P.length : Int) = 0 := by
  rw [coefVal_nat, List.getD_eq_default _ _ le_rfl, zero_toInt]

/-- Entry `j` of `multiplyPoly(P, r)` is a well-formed `BigInt` denoting `P[j] - r * P[j-1]`. -/
theorem multiplyPoly_entry (P : List BigInt) (r : BigInt) (hP : ∀ x ∈ P, x.wf = true)
    (hr : r.wf = true) (j : Nat) (hj : j ≤ P.length) :
    ((multiplyPoly P r).getD j (BigInt.ofString ['0'])).wf = true ∧
      ((multiplyPoly P r).getD j (BigInt.ofString ['0'])).toInt =
        coefVal P j - r.toInt * coefVal P ((j : Int) - 1) := by
  rw [multiplyPoly_getD]
  have hz := zero_wf
  have hprev : ∀ i, ((P.getD i (BigInt.ofString ['0'])).mul r).wf = true :=
    fun i => mul_wf (getD_wf hP i) hr
  have hsubw : ∀ i, ((BigInt.ofString ['0']).sub
      ((P.getD i (BigInt.ofString ['0'])).mul r)).wf = true := fun i => sub_wf hz (hprev i)
  have hsubv : ∀ i, ((BigInt.ofString ['0']).sub
      ((P.getD i (BigInt.ofString ['0'])).mul r)).toInt =
      - ((P.getD i (BigInt.ofString ['0'])).toInt * r.toInt) := by
    intro i
    rw [sub_toInt hz (hprev i), mul_toInt (getD_wf hP i) hr, zero_toInt]
    ring
  by_cases hlt : j < P.length
  · by_cases h0 : j = 0
    · subst h0
      have e : polyEntry P r P.length 0 =
          (BigInt.ofString ['0']).add (P.getD 0 (BigInt.ofString ['0'])) := by
        simp [polyEntry, hlt]
      rw [e]
      refine ⟨add_wf hz ((wf_iff _).mp (getD_wf hP 0)).1, ?_⟩
      rw [add_toInt hz (getD_wf hP 0), zero_toInt, coefVal_nat]
      simp [coefVal]
    · have e : polyEntry P r P.length j =
          ((BigInt.ofString ['0']).sub ((P.getD (j - 1) (BigInt.ofString ['0'])).mul r)).add
            (P.getD j (BigInt.ofString ['0'])) := by
        simp [polyEntry, hlt, h0]
      rw [e]
      refine ⟨add_wf (hsubw _) ((wf_iff _).mp (getD_wf hP j)).1, ?_⟩
      have hc : ((j : Int) - 1) = ((j - 1 : Nat) : Int) := by omega
      rw [add_toInt (hsubw _) (getD_wf hP j), hsubv, coefVal_nat, hc, coefVal_nat]
      ring
  · have hjn : j = P.length := by omega
    subst hjn
    by_cases h0 : P.length = 0
    · have e : polyEntry P r P.length P.length = BigInt.ofString ['0'] := by
        simp [polyEntry, h0]
      rw [e, coefVal_length]
      refine ⟨hz, ?_⟩
      rw [zero_toInt, h0]
      simp [coefVal]
    · have hpos : 0 < P.length := Nat.pos_of_ne_zero h0
      have e : polyEntry P r P.length P.length =
          (BigInt.ofString ['0']).sub
            ((P.getD (P.length - 1) (BigInt.ofString ['0'])).mul r) := by
        simp [polyEntry, hpos]
      rw [e, coefVal_length]
      refine ⟨hsubw _, ?_⟩
      have hc : ((P.length : Int) - 1) = ((P.length - 1 : Nat) : Int) := by omega
      rw [hsubv, hc, coefVal_nat]
      ring

theorem multiplyPoly_wf (P : List BigInt) (r : BigInt) (hP : ∀ x ∈ P, x.wf = true)
    (hr : r.wf = true) : ∀ x ∈ multiplyPoly P r, x.wf = true := by
  intro x hx
  obtain ⟨j, hj, rfl⟩ := List.getElem_of_mem hx
  have h := (multiplyPoly_entry P r hP hr j (by rw [multiplyPoly_length] at hj; omega)).1
  rwa [List.getD_eq_getElem _ _ hj] at h

theorem stepVals_length (r : Int) : ∀ (vs : List Int) (prev : Int),
    (stepVals r prev vs).length = vs.length + 1
  | [], _ => rfl
  | _ :: vs, _ => by simp [stepVals, stepVals_length r vs]

theorem stepVals_getD (r : Int) : ∀ (vs : List Int) (prev : Int) (j : Nat), j ≤ vs.length →
    (stepVals r prev vs).getD j 0 =
      vs.getD j 0 - r * (if j = 0 then prev else vs.getD (j - 1) 0)
  | [], prev, j, hj => by
    have : j = 0 := by simpa using hj
    subst this
    simp [stepVals]
    ring
  | v :: vs, prev, 0, _ => by
    simp [stepVals]
    ring
  | v :: vs, prev, j + 1, hj => by
    have := stepVals_getD r vs v j (by simpa using hj)
    simp only [stepVals, List.getD_cons_succ, this]
    cases j with
    | zero => simp
    | succ j => simp

/-- The integer coefficients of `multiplyPoly(P, r)` follow the recurrence `stepVals`. -/
theorem multiplyPoly_vals (P : List BigInt) (r : BigInt) (hP : ∀ x ∈ P, x.wf = true)
    (hr : r.wf = true) :
    (multiplyPoly P r).map BigInt.toInt = stepVals r.toInt 0 (P.map BigInt.toInt) := by
  apply List.ext_getElem
  · rw [List.length_map, multiplyPoly_length, stepVals_length, List.length_map]
  · intro j h1 h2
    rw [List.length_map, multiplyPoly_length] at h1
    have e1 := (multiplyPoly_entry P r hP hr j (by omega)).2
    rw [List.getD_eq_getElem _ _ (by rw [multiplyPoly_length]; omega)] at e1
    have e2 := stepVals_getD r.toInt (P.map BigInt.toInt) 0 j (by rw [List.length_map]; omega)
    rw [List.getD_eq_getElem _ _ h2] at e2
    rw [List.getElem_map, e1, e2]
    by_cases h0 : j = 0
    · subst h0
      simp [coefVal]
    · have hc : ((j : Int) - 1) = ((j - 1 : Nat) : Int) := by omega
      rw [hc]
      simp [coefVal, h0]


/-! ## The polynomial denoted by a coefficient vector read highest degree first -/

/-- The recurrence `stepVals` multiplies the polynomial read highest degree first by
`X - r`. -/
theorem horner_stepVals (r : Int) : ∀ (vs : List Int) (prev : Int) (acc acc2 : Polynomial Int),
    acc2 * Polynomial.X - Polynomial.C (prev * r) = acc * (Polynomial.X - Polynomial.C r) →
    (stepVals r prev vs).foldl (fun p c => p * Polynomial.X + Polynomial.C c) acc2 =
      vs.foldl (fun p c => p * Polynomial.X + Polynomial.C c) acc * (Polynomial.X - Polynomial.C r)
  | [], prev, acc, acc2, h => by
    simp only [stepVals, List.foldl_cons, List.foldl_nil]
    rw [← h]
    simp only [zero_sub, Polynomial.C_neg]
    ring
  | v :: vs, prev, acc, acc2, h => by
    simp only [stepVals, List.foldl_cons]
    apply horner_stepVals r vs v
    simp only [Polynomial.C_sub, Polynomial.C_mul] at h ⊢
    linear_combination Polynomial.X * h

theorem horner_append (vs : List Int) (c : Int) (acc : Polynomial Int) :
    (vs ++ [c]).foldl (fun p c => p * Polynomial.X + Polynomial.C c) acc =
      vs.foldl (fun p c => p * Polynomial.X + Polynomial.C c) acc * Polynomial.X + Polynomial.C c := by
  simp [List.foldl_append]

/-- Entry `j` of a coefficient vector is the coefficient of `x^(len - 1 - j)` of the polynomial
it denotes when read highest degree first. -/
theorem horner_coeff (vs : List Int) : ∀ (j : Nat), j < vs.length →
    (vs.foldl (fun p c => p * Polynomial.X + Polynomial.C c) (0 : Polynomial Int)).coeff (vs.length - 1 - j) =
      vs.getD j 0 := by
  induction vs using List.reverseRecOn with
  | nil => intro j hj; simp at hj
  | append_singleton vs c ih =>
    intro j hj
    rw [horner_append, List.length_append, List.length_singleton] at *
    by_cases hlast : j = vs.length
    · subst hlast
      simp [List.getD_eq_getElem?_getD]
    · have hj2 : j < vs.length := by omega
      have e : vs.length + 1 - 1 - j = (vs.length - 1 - j) + 1 := by omega
      rw [e, Polynomial.coeff_add, Polynomial.coeff_mul_X, Polynomial.coeff_C_succ, add_zero,
        ih j hj2,
        List.getD_eq_getElem?_getD, List.getD_eq_getElem?_getD,
        List.getElem?_append_left hj2]

/-- The loop of `main`: the vector denotes, highest degree first, the start polynomial times
the product of the factors `X - r`. -/
theorem foldl_multiplyPoly (rs : List BigInt) : ∀ (P : List BigInt),
    (∀ x ∈ P, x.wf = true) → (∀ r ∈ rs, r.wf = true) →
    (∀ x ∈ rs.foldl multiplyPoly P, x.wf = true) ∧
      (rs.foldl multiplyPoly P).length = P.length + rs.length ∧
      ((rs.foldl multiplyPoly P).map BigInt.toInt).foldl (fun p c => p * Polynomial.X + Polynomial.C c)
          (0 : Polynomial Int) =
        (P.map BigInt.toInt).foldl (fun p c => p * Polynomial.X + Polynomial.C c) (0 : Polynomial Int) *
          (rs.map (fun r => Polynomial.X - Polynomial.C r.toInt)).prod := by
  induction rs with
  | nil => intro P hP _; exact ⟨hP, by simp, by simp⟩
  | cons r rs ih =>
    intro P hP hrs
    have hr := hrs r (by simp)
    obtain ⟨w, l, v⟩ := ih (multiplyPoly P r) (multiplyPoly_wf P r hP hr)
      (fun x hx => hrs x (by simp [hx]))
    refine ⟨w, ?_, ?_⟩
    · rw [List.foldl_cons, l, multiplyPoly_length, List.length_cons]
      omega
    · rw [List.foldl_cons, v, multiplyPoly_vals P r hP hr,
        horner_stepVals r.toInt (P.map BigInt.toInt) 0 0 0 (by simp), List.map_cons,
        List.prod_cons]
      ring


theorem map_toInt_getD (P : List BigInt) (j : Nat) :
    (P.map BigInt.toInt).getD j 0 = (P.getD j (BigInt.ofString ['0'])).toInt := by
  have h := coefVal_nat P j
  unfold coefVal at h
  rwa [if_pos (by omega), Int.toNat_ofNat] at h

/-- The sign flag and the magnitude of a well-formed `BigInt` are read off the integer it
denotes. -/
theorem wf_sign_magnitude {x : BigInt} (hx : x.wf = true) :
    magnitude x.digits = |x.toInt| ∧ (x.negative = true ↔ x.toInt < 0) := by
  rw [wf_iff] at hx
  obtain ⟨w, s⟩ := hx
  have h0 := w.magnitude_nonneg_of_wfD
  have hz := w.magnitude_eq_zero_iff
  unfold BigInt.toInt
  cases hn : x.negative
  · simp only [Bool.false_eq_true, if_false, false_iff, not_lt]
    exact ⟨(abs_of_nonneg h0).symm, h0⟩
  · simp only [if_true, true_iff, abs_neg]
    have hne : magnitude x.digits ≠ 0 := by
      intro h
      have := s (hz.mp h)
      rw [hn] at this
      exact absurd this (by decide)
    exact ⟨(abs_of_nonneg h0).symm, by omega⟩

/-! ## The claims -/

/-- C1 (as stated, refuted): the vector built by the loop of `main` is not lowest degree
first.  Roots 2, 3 do not give `[6, -5, 1]`, the single root 0 does not give `[0, 1]`, and
entry 0 for roots 2, 3 is not the coefficient of `x^0` of `(x - 2)(x - 3)`. -/
theorem expandRoots_lowest_first_fails :
    expandRoots [BigInt.ofString ['2'], BigInt.ofString ['3']] ≠
        [BigInt.ofString ['6'], BigInt.ofString ['-', '5'], BigInt.ofString ['1']] ∧
      expandRoots [BigInt.ofString ['0']] ≠ [BigInt.ofString ['0'], BigInt.ofString ['1']] ∧
      ((expandRoots [BigInt.ofString ['2'], BigInt.ofString ['3']]).getD 0
          (BigInt.ofString ['0'])).toInt ≠
        (([BigInt.ofString ['2'], BigInt.ofString ['3']].map
          (fun r => (Polynomial.X - Polynomial.C r.toInt : Polynomial Int))).prod).coeff 0 := by
  refine ⟨by decide, by decide, ?_⟩
  have h : ((expandRoots [BigInt.ofString ['2'], BigInt.ofString ['3']]).getD 0
      (BigInt.ofString ['0'])).toInt = 1 := by decide
  have h2 : (BigInt.ofString ['2']).toInt = 2 := by decide
  have h3 : (BigInt.ofString ['3']).toInt = 3 := by decide
  rw [h]
  simp only [List.map_cons, List.map_nil, List.prod_cons, List.prod_nil, mul_one, h2, h3,
    Polynomial.mul_coeff_zero, Polynomial.coeff_sub, Polynomial.coeff_X_zero,
    Polynomial.coeff_C_zero]
  norm_num

/-- C1 (amended): for every list of well-formed roots `r_1..r_k`, folding `multiplyPoly` over
the roots in order from `[1]` yields a vector of `k + 1` well-formed entries whose index-`j`
entry denotes the coefficient of `x^(k-j)` in the product of the `(x - r_i)`, i.e. highest
degree first; roots 2, 3 yield `[1, -5, 6]` and the single root 0 yields `[1, 0]`. -/
theorem expandRoots_highest_first (rs : List BigInt) (hrs : ∀ r ∈ rs, r.wf = true) :
    (expandRoots rs).length = rs.length + 1 ∧
      (∀ j, j ≤ rs.length →
        ((expandRoots rs).getD j (BigInt.ofString ['0'])).wf = true ∧
        ((expandRoots rs).getD j (BigInt.ofString ['0'])).toInt =
          ((rs.map (fun r => (Polynomial.X - Polynomial.C r.toInt : Polynomial Int))).prod).coeff
            (rs.length - j)) ∧
      expandRoots [BigInt.ofString ['2'], BigInt.ofString ['3']] =
        [BigInt.ofString ['1'], BigInt.ofString ['-', '5'], BigInt.ofString ['6']] ∧
      expandRoots [BigInt.ofString ['0']] = [BigInt.ofString ['1'], BigInt.ofString ['0']] := by
  have h1 : ∀ x ∈ [BigInt.ofString ['1']], x.wf = true := by decide
  obtain ⟨w, l, v⟩ := foldl_multiplyPoly rs [BigInt.ofString ['1']] h1 hrs
  have hone : (BigInt.ofString ['1']).toInt = 1 := by decide
  simp only [List.map_cons, List.map_nil, List.foldl_cons, List.foldl_nil, hone, zero_mul,
    zero_add, Polynomial.C_1, one_mul, List.length_singleton] at v l
  refine ⟨by unfold expandRoots; omega, fun j hj => ⟨?_, ?_⟩, by decide, by decide⟩
  · have hlt : j < (expandRoots rs).length := by unfold expandRoots; omega
    rw [List.getD_eq_getElem _ _ hlt]
    exact w _ (List.getElem_mem _)
  · have hc := horner_coeff ((rs.foldl multiplyPoly [BigInt.ofString ['1']]).map BigInt.toInt) j
      (by rw [List.length_map]; omega)
    rw [v, List.length_map, l, map_toInt_getD] at hc
    have e : 1 + rs.length - 1 - j = rs.length - j := by omega
    rw [e] at hc
    exact hc.symm

theorem expandRoots_highest_first_witness :
    (∀ r ∈ [BigInt.ofString ['2'], BigInt.ofString ['3']], r.wf = true) ∧
      (expandRoots [BigInt.ofString ['2'], BigInt.ofString ['3']]).length = 2 + 1 :=
  ⟨by decide,
    (expandRoots_highest_first [BigInt.ofString ['2'], BigInt.ofString ['3']] (by decide)).1⟩

/-- C2 (as stated, refuted): for `P = [1]` and root 2, entry 0 of `multiplyPoly(P, r)` denotes
1, not `P[-1] - r * P[0] = -2`, and entry 1 denotes -2, not `P[0] - r * P[1] = 1`. -/
theorem multiplyPoly_claimed_entry_fails :
    ((multiplyPoly [BigInt.ofString ['1']] (BigInt.ofString ['2'])).getD 0
        (BigInt.ofString ['0'])).toInt ≠
      coefVal [BigInt.ofString ['1']] (0 - 1) -
        (BigInt.ofString ['2']).toInt * coefVal [BigInt.ofString ['1']] 0 ∧
    ((multiplyPoly [BigInt.ofString ['1']] (BigInt.ofString ['2'])).getD 1
        (BigInt.ofString ['0'])).toInt ≠
      coefVal [BigInt.ofString ['1']] (1 - 1) -
        (BigInt.ofString ['2']).toInt * coefVal [BigInt.ofString ['1']] 1 := by
  decide

/-- C2 (amended): for every vector `P` of well-formed `BigInt`s and every well-formed root
`r`, `multiplyPoly(P, r)` has `len(P) + 1` well-formed entries, entry `j` denotes
`P[j] - r * P[j-1]` (with `P[-1]` and `P[len(P)]` read as 0), and, read highest degree first,
the result is the polynomial `P(x) * (x - r)`. -/
theorem multiplyPoly_times_linear_factor (P : List BigInt) (r : BigInt)
    (hP : ∀ x ∈ P, x.wf = true) (hr : r.wf = true) :
    (multiplyPoly P r).length = P.length + 1 ∧
      (∀ j, j ≤ P.length →
        ((multiplyPoly P r).getD j (BigInt.ofString ['0'])).wf = true ∧
        ((multiplyPoly P r).getD j (BigInt.ofString ['0'])).toInt =
          coefVal P j - r.toInt * coefVal P ((j : Int) - 1)) ∧
      ((multiplyPoly P r).map BigInt.toInt).foldl
          (fun p c => p * Polynomial.X + Polynomial.C c) (0 : Polynomial Int) =
        (P.map BigInt.toInt).foldl
          (fun p c => p * Polynomial.X + Polynomial.C c) (0 : Polynomial Int) *
          (Polynomial.X - Polynomial.C r.toInt) := by
  refine ⟨multiplyPoly_length P r, fun j hj => multiplyPoly_entry P r hP hr j hj, ?_⟩
  rw [multiplyPoly_vals P r hP hr]
  exact horner_stepVals r.toInt (P.map BigInt.toInt) 0 0 0 (by simp)

theorem multiplyPoly_times_linear_factor_witness :
    (∀ x ∈ [BigInt.ofString ['1'], BigInt.ofString ['-', '5']], x.wf = true) ∧
      (BigInt.ofString ['3']).wf = true ∧
      (multiplyPoly [BigInt.ofString ['1'], BigInt.ofString ['-', '5']]
        (BigInt.ofString ['3'])).length =
        [BigInt.ofString ['1'], BigInt.ofString ['-', '5']].length + 1 :=
  ⟨by decide, by decide,
    (multiplyPoly_times_linear_factor [BigInt.ofString ['1'], BigInt.ofString ['-', '5']]
      (BigInt.ofString ['3']) (by decide) (by decide)).1⟩

/-- C3: for every base `b` with `2 <= b <= 36` and every string over `[0-9a-zA-Z]`,
`convertToDecimal(s, b)` is a well-formed non-negative `BigInt` denoting the Horner sum of the
digit values of `s`; `("A", 16)` gives 10 and `("101", 2)` gives 5. -/
theorem convertToDecimal_horner (s : List Char) (b : Int) (hb2 : 2 ≤ b) (hb36 : b ≤ 36)
    (hs : ∀ c ∈ s, isAlnum c = true) :
    (convertToDecimal s b).wf = true ∧ (convertToDecimal s b).negative = false ∧
      (convertToDecimal s b).toInt = hornerValue b s ∧
      convertToDecimal ['A'] 16 = BigInt.ofString ['1', '0'] ∧
      convertToDecimal ['1', '0', '1'] 2 = BigInt.ofString ['5'] := by
  obtain ⟨w, n, m⟩ := convert_fold b hb2 hb36 s (BigInt.ofString ['0']) hs zero_wf (by decide)
  have hz : magnitude (BigInt.ofString ['0']).digits = 0 := by decide
  rw [hz] at m
  refine ⟨w, n, ?_, by decide, by decide⟩
  unfold BigInt.toInt
  unfold convertToDecimal
  rw [n]
  exact m

theorem convertToDecimal_horner_witness :
    (2 : Int) ≤ 36 ∧ (36 : Int) ≤ 36 ∧ (∀ c ∈ ['z', 'Z', '9', 'a'], isAlnum c = true) ∧
      (convertToDecimal ['z', 'Z', '9', 'a'] 36).wf = true ∧
      (convertToDecimal ['z', 'Z', '9', 'a'] 36).toInt = hornerValue 36 ['z', 'Z', '9', 'a'] :=
  ⟨by decide, by decide, by decide,
    (convertToDecimal_horner ['z', 'Z', '9', 'a'] 36 (by decide) (by decide) (by decide)).1,
    (convertToDecimal_horner ['z', 'Z', '9', 'a'] 36 (by decide) (by decide) (by decide)).2.2.1⟩

/-- C4: for well-formed `a` and `b`, `operator*(a, b)` is well formed and denotes
`value(a) * value(b)`: its magnitude is `|a| * |b|`, its sign flag is `sign(a) XOR sign(b)`
when the product is non-zero, and it is the non-negative single digit zero when either
operand is zero. -/
theorem mul_denotes_product (a b : BigInt) (ha : a.wf = true) (hb : b.wf = true) :
    (a.mul b).wf = true ∧ (a.mul b).toInt = a.toInt * b.toInt ∧
      magnitude (a.mul b).digits = |a.toInt| * |b.toInt| ∧
      (a.toInt * b.toInt ≠ 0 → (a.mul b).negative = (a.negative != b.negative)) ∧
      (a.toInt = 0 ∨ b.toInt = 0 → a.mul b = ⟨['0'], false⟩) := by
  obtain ⟨w, m, v, n⟩ := mul_spec a b ((wf_iff a).mp ha).1 ((wf_iff b).mp hb).1
  have hz := ((wf_iff _).mp w).1.magnitude_eq_zero_iff
  have sa := (wf_sign_magnitude ha).1
  have sb := (wf_sign_magnitude hb).1
  have sm := (wf_sign_magnitude w).1
  refine ⟨w, v, ?_, ?_, ?_⟩
  · rw [m, sa, sb]
  · intro hne
    have : (a.mul b).digits ≠ ['0'] := by
      intro h
      have h0 := hz.mpr h
      rw [sm, v, abs_eq_zero] at h0
      exact hne h0
    rw [n, if_neg this]
  · intro h0
    have hv : a.toInt * b.toInt = 0 := by
      rcases h0 with h | h <;> simp [h]
    have hd : (a.mul b).digits = ['0'] := by
      apply hz.mp
      rw [sm, v, hv, abs_zero]
    have hn : (a.mul b).negative = false := by rw [n, if_pos hd]
    cases hab : a.mul b with
    | mk ds ng =>
      rw [hab] at hd hn
      simp only at hd hn
      rw [hd, hn]

theorem mul_denotes_product_witness :
    (⟨['3', '2', '1'], true⟩ : BigInt).wf = true ∧ (⟨['7', '6', '5', '4'], false⟩ : BigInt).wf = true ∧
      (BigInt.mul ⟨['3', '2', '1'], true⟩ ⟨['7', '6', '5', '4'], false⟩).toInt =
        (⟨['3', '2', '1'], true⟩ : BigInt).toInt * (⟨['7', '6', '5', '4'], false⟩ : BigInt).toInt :=
  ⟨by decide, by decide,
    (mul_denotes_product ⟨['3', '2', '1'], true⟩ ⟨['7', '6', '5', '4'], false⟩ (by decide)
      (by decide)).2.1⟩


/-- C5: for well-formed `a` and `b`, `operator+(a, b)` is well formed and denotes
`value(a) + value(b)`; with equal signs the magnitudes are added and the sign kept; with
opposite signs the smaller magnitude is subtracted from the larger and the result takes the
sign of the operand with the larger magnitude; with opposite signs and equal magnitudes the
result is the non-negative single digit zero. -/
theorem add_denotes_sum (a b : BigInt) (ha : a.wf = true) (hb : b.wf = true) :
    (a.add b).wf = true ∧ (a.add b).toInt = a.toInt + b.toInt ∧
      (a.negative = b.negative →
        magnitude (a.add b).digits = magnitude a.digits + magnitude b.digits ∧
          (a.add b).negative = a.negative) ∧
      (a.negative ≠ b.negative → magnitude b.digits < magnitude a.digits →
        magnitude (a.add b).digits = magnitude a.digits - magnitude b.digits ∧
          (a.add b).negative = a.negative) ∧
      (a.negative ≠ b.negative → magnitude a.digits < magnitude b.digits →
        magnitude (a.add b).digits = magnitude b.digits - magnitude a.digits ∧
          (a.add b).negative = b.negative) ∧
      (a.negative ≠ b.negative → magnitude a.digits = magnitude b.digits →
        a.add b = ⟨['0'], false⟩) := by
  have w := add_wf ha ((wf_iff b).mp hb).1
  have v := add_toInt ha hb
  obtain ⟨ma, na⟩ := wf_sign_magnitude ha
  obtain ⟨mb, nb⟩ := wf_sign_magnitude hb
  obtain ⟨mr, nr⟩ := wf_sign_magnitude w
  have hz := ((wf_iff _).mp w).1.magnitude_eq_zero_iff
  have a0 := ((wf_iff a).mp ha).1.magnitude_nonneg_of_wfD
  have b0 := ((wf_iff b).mp hb).1.magnitude_nonneg_of_wfD
  have ta : a.toInt = if a.negative then - magnitude a.digits else magnitude a.digits := rfl
  have tb : b.toInt = if b.negative then - magnitude b.digits else magnitude b.digits := rfl
  rw [v] at mr nr
  refine ⟨w, v, ?_, ?_, ?_, ?_⟩
  · intro hs
    cases hna : a.negative
    · have hnb : b.negative = false := by rw [← hs, hna]
      rw [hna] at ta; rw [hnb] at tb
      simp only [Bool.false_eq_true, if_false] at ta tb
      have hnn : ¬ (a.add b).negative = true := by rw [nr]; omega
      refine ⟨?_, by simpa using hnn⟩
      rw [mr, ta, tb, abs_of_nonneg (by omega)]
    · have hnb : b.negative = true := by rw [← hs, hna]
      rw [hna] at ta na; rw [hnb] at tb nb
      simp only [if_true] at ta tb
      have ha1 := na.mp rfl
      have hb1 := nb.mp rfl
      refine ⟨?_, nr.mpr (by omega)⟩
      rw [mr, abs_of_nonpos (by omega), ta, tb]
      ring
  · intro hs hlt
    cases hna : a.negative
    · have hnb : b.negative = true := by
        cases h : b.negative
        · exact absurd (hna.trans h.symm) hs
        · rfl
      rw [hna] at ta; rw [hnb] at tb
      simp only [Bool.false_eq_true, if_false, if_true] at ta tb
      have hnn : ¬ (a.add b).negative = true := by rw [nr]; omega
      refine ⟨?_, by simpa using hnn⟩
      rw [mr, ta, tb, abs_of_nonneg (by omega)]
      ring
    · have hnb : b.negative = false := by
        cases h : b.negative
        · rfl
        · exact absurd (hna.trans h.symm) hs
      rw [hna] at ta; rw [hnb] at tb
      simp only [Bool.false_eq_true, if_false, if_true] at ta tb
      refine ⟨?_, nr.mpr (by omega)⟩
      rw [mr, abs_of_nonpos (by omega), ta, tb]
      ring
  · intro hs hlt
    cases hna : a.negative
    · have hnb : b.negative = true := by
        cases h : b.negative
        · exact absurd (hna.trans h.symm) hs
        · rfl
      rw [hna] at ta; rw [hnb] at tb
      simp only [Bool.false_eq_true, if_false, if_true] at ta tb
      refine ⟨?_, by rw [hnb]; exact nr.mpr (by omega)⟩
      rw [mr, abs_of_nonpos (by omega), ta, tb]
      ring
    · have hnb : b.negative = false := by
        cases h : b.negative
        · rfl
        · exact absurd (hna.trans h.symm) hs
      rw [hna] at ta; rw [hnb] at tb
      simp only [Bool.false_eq_true, if_false, if_true] at ta tb
      have hnn : ¬ (a.add b).negative = true := by rw [nr]; omega
      refine ⟨?_, by rw [hnb]; simpa using hnn⟩
      rw [mr, ta, tb, abs_of_nonneg (by omega)]
      ring
  · intro hs he
    have hv : a.toInt + b.toInt = 0 := by
      cases hna : a.negative <;> cases hnb : b.negative <;>
        simp only [hna, hnb, Bool.false_eq_true, if_false, if_true] at ta tb hs <;>
        first | exact absurd rfl hs | omega
    apply toInt_inj w (by decide)
    rw [v, hv]
    decide

theorem add_denotes_sum_witness :
    (⟨['3', '2', '1'], true⟩ : BigInt).wf = true ∧ (⟨['5', '4'], false⟩ : BigInt).wf = true ∧
      (BigInt.add ⟨['3', '2', '1'], true⟩ ⟨['5', '4'], false⟩).toInt =
        (⟨['3', '2', '1'], true⟩ : BigInt).toInt + (⟨['5', '4'], false⟩ : BigInt).toInt :=
  ⟨by decide, by decide,
    (add_denotes_sum ⟨['3', '2', '1'], true⟩ ⟨['5', '4'], false⟩ (by decide) (by decide)).2.1⟩

/-- C6: for well-formed `a` and `b`, `operator-(a, b)` is `operator+(a, negate(b))`, is well
formed and denotes `value(a) - value(b)`; this includes `b` zero, where the operand handed to
`operator+` is a zero with the sign flag set, and then the result is `a`. -/
theorem sub_denotes_difference (a b : BigInt) (ha : a.wf = true) (hb : b.wf = true) :
    a.sub b = a.add ⟨b.digits, !b.negative⟩ ∧ (a.sub b).wf = true ∧
      (a.sub b).toInt = a.toInt - b.toInt ∧
      a.sub ⟨['0'], false⟩ = a.add ⟨['0'], true⟩ ∧ a.sub ⟨['0'], false⟩ = a := by
  refine ⟨rfl, sub_wf ha hb, sub_toInt ha hb, rfl, ?_⟩
  have hz : (⟨['0'], false⟩ : BigInt).wf = true := by decide
  apply toInt_inj (sub_wf ha hz) ha
  rw [sub_toInt ha hz]
  have : (⟨['0'], false⟩ : BigInt).toInt = 0 := by decide
  rw [this, sub_zero]

theorem sub_denotes_difference_witness :
    (⟨['3', '2', '1'], true⟩ : BigInt).wf = true ∧ (⟨['0'], false⟩ : BigInt).wf = true ∧
      (BigInt.sub ⟨['3', '2', '1'], true⟩ ⟨['0'], false⟩).toInt =
        (⟨['3', '2', '1'], true⟩ : BigInt).toInt - (⟨['0'], false⟩ : BigInt).toInt :=
  ⟨by decide, by decide,
    (sub_denotes_difference ⟨['3', '2', '1'], true⟩ ⟨['0'], false⟩ (by decide)
      (by decide)).2.2.1⟩

/-- C7: for every valid decimal string `s`, `print` of `BigInt(s)` writes the canonical form
of `s`: leading zeros stripped down to at least one digit, the sign kept exactly when a
non-zero digit remains; `-000` is written `0` and `-0012` is written `-12`. -/
theorem print_canonical (s : List Char) (hs : validDecimal s = true) :
    (BigInt.ofString s).print = canonicalForm s ∧
      (BigInt.ofString ['-', '0', '0', '0']).print = ['0'] ∧
      (BigInt.ofString ['-', '0', '0', '1', '2']).print = ['-', '1', '2'] := by
  refine ⟨print_ofString s ?_, by decide, by decide⟩
  simp only [validDecimal, Bool.and_eq_true, decide_eq_true_eq] at hs
  exact hs.1

theorem print_canonical_witness :
    validDecimal ['-', '0', '0', '1', '2'] = true ∧
      (BigInt.ofString ['-', '0', '0', '1', '2']).print =
        canonicalForm ['-', '0', '0', '1', '2'] :=
  ⟨by decide, (print_canonical ['-', '0', '0', '1', '2'] (by decide)).1⟩

/-- C8: the `BigInt` invariants (digits non-empty and decimal, no most significant zero except
the single digit zero, sign flag clear on zero) hold for `BigInt(s)` for every valid decimal
string `s`, and `operator+`, `operator-` and `operator*` return a value satisfying them
whenever both operands satisfy them. -/
theorem invariants_preserved (s : List Char) (a b : BigInt) (hs : validDecimal s = true)
    (ha : a.wf = true) (hb : b.wf = true) :
    (BigInt.ofString s).wf = true ∧ (a.add b).wf = true ∧ (a.sub b).wf = true ∧
      (a.mul b).wf = true :=
  ⟨ofString_wf s hs, add_wf ha ((wf_iff b).mp hb).1, sub_wf ha hb, mul_wf ha hb⟩

theorem invariants_preserved_witness :
    validDecimal ['-', '0', '0', '0'] = true ∧ (⟨['3', '2', '1'], true⟩ : BigInt).wf = true ∧
      (⟨['3', '2', '1'], false⟩ : BigInt).wf = true ∧
      ((BigInt.ofString ['-', '0', '0', '0']).wf = true ∧
        (BigInt.add ⟨['3', '2', '1'], true⟩ ⟨['3', '2', '1'], false⟩).wf = true ∧
        (BigInt.sub ⟨['3', '2', '1'], true⟩ ⟨['3', '2', '1'], false⟩).wf = true ∧
        (BigInt.mul ⟨['3', '2', '1'], true⟩ ⟨['3', '2', '1'], false⟩).wf = true) :=
  ⟨by decide, by decide, by decide,
    invariants_preserved ['-', '0', '0', '0'] ⟨['3', '2', '1'], true⟩ ⟨['3', '2', '1'], false⟩
      (by decide) (by decide) (by decide)⟩

/-- C9: addition is commutative on well-formed operands of any signs: `operator+(a, b)` and
`operator+(b, a)` are the same `BigInt`, digit string and sign flag. -/
theorem bigint_add_comm (a b : BigInt) (ha : a.wf = true) (hb : b.wf = true) :
    a.add b = b.add a := by
  apply toInt_inj (add_wf ha ((wf_iff b).mp hb).1) (add_wf hb ((wf_iff a).mp ha).1)
  rw [add_toInt ha hb, add_toInt hb ha, add_comm]

theorem bigint_add_comm_witness :
    (⟨['3', '2', '1'], true⟩ : BigInt).wf = true ∧ (⟨['9', '9'], false⟩ : BigInt).wf = true ∧
      BigInt.add ⟨['3', '2', '1'], true⟩ ⟨['9', '9'], false⟩ =
        BigInt.add ⟨['9', '9'], false⟩ ⟨['3', '2', '1'], true⟩ :=
  ⟨by decide, by decide,
    bigint_add_comm ⟨['3', '2', '1'], true⟩ ⟨['9', '9'], false⟩ (by decide) (by decide)⟩

/-- C10: addition is associative on well-formed operands of any signs: `(a + b) + c` and
`a + (b + c)` are the same `BigInt`, digit string and sign flag. -/
theorem bigint_add_assoc (a b c : BigInt) (ha : a.wf = true) (hb : b.wf = true)
    (hc : c.wf = true) : (a.add b).add c = a.add (b.add c) := by
  have hab := add_wf ha ((wf_iff b).mp hb).1
  have hbc := add_wf hb ((wf_iff c).mp hc).1
  apply toInt_inj (add_wf hab ((wf_iff c).mp hc).1) (add_wf ha ((wf_iff _).mp hbc).1)
  rw [add_toInt hab hc, add_toInt ha hb, add_toInt ha hbc, add_toInt hb hc, add_assoc]

theorem bigint_add_assoc_witness :
    (⟨['3', '2', '1'], true⟩ : BigInt).wf = true ∧ (⟨['9', '9'], false⟩ : BigInt).wf = true ∧
      (⟨['4', '2'], false⟩ : BigInt).wf = true ∧
      (BigInt.add (BigInt.add ⟨['3', '2', '1'], true⟩ ⟨['9', '9'], false⟩)
          ⟨['4', '2'], false⟩) =
        BigInt.add ⟨['3', '2', '1'], true⟩ (BigInt.add ⟨['9', '9'], false⟩ ⟨['4', '2'], false⟩) :=
  ⟨by decide, by decide, by decide,
    bigint_add_assoc ⟨['3', '2', '1'], true⟩ ⟨['9', '9'], false⟩ ⟨['4', '2'], false⟩ (by decide)
      (by decide) (by decide)⟩

/-! ## Further facts about the loops -/

theorem addUnsignedLoop_length (a b : List Char) : ∀ (k i : Nat) (c : Int),
    (addUnsignedLoop a b k i c).length =
      k + (if addUnsignedCarry a b k i c ≠ 0 then 1 else 0) := by
  intro k
  induction k with
  | zero =>
    intro i c
    by_cases hc : c = 0 <;> simp [addUnsignedLoop, addUnsignedCarry, hc]
  | succ k ih =>
    intro i c
    simp only [addUnsignedLoop, addUnsignedCarry, List.length_cons, ih]
    omega

theorem subtractUnsignedBorrow_shift (b : List Char) : ∀ (a : List Char) (i : Nat) (br : Int),
    subtractUnsignedBorrow b a (i + 1) br = subtractUnsignedBorrow b.tail a i br := by
  intro a
  induction a with
  | nil => intro i br; simp [subtractUnsignedBorrow]
  | cons x a ih =>
    intro i br
    simp only [subtractUnsignedBorrow, digitAt_succ]
    rw [ih, ih]

/-- No borrow is left when the loop of `subtractUnsigned` exits, if the minuend is at least
the subtrahend plus the incoming borrow. -/
theorem subtractUnsignedBorrow_zero : ∀ (a b : List Char) (br : Int), Dec a → Dec b →
    0 ≤ br → br ≤ 1 → magnitude b + br ≤ magnitude a →
    subtractUnsignedBorrow b a 0 br = 0 := by
  intro a
  induction a with
  | nil =>
    intro b br _ hdb h0 _ hle
    have := hdb.magnitude_nonneg
    simp only [magnitude] at hle
    simp only [subtractUnsignedBorrow]
    omega
  | cons x a ih =>
    intro b br hda hdb h0 h1 hle
    have bx := hda.digitAt_decimal 0
    have bb := hdb.digitAt_decimal 0
    have hb0 := hdb.tail_dec.magnitude_nonneg
    rw [digitAt_cons_zero] at bx
    rw [magnitude_head_tail b] at hle
    simp only [magnitude] at hle
    simp only [subtractUnsignedBorrow]
    generalize ord x - 48 = d1 at *
    generalize digitAt b 0 = d2 at *
    split
    · rw [subtractUnsignedBorrow_shift]
      exact ih b.tail 1 hda.tail_dec hdb.tail_dec (by norm_num) le_rfl (by omega)
    · rw [subtractUnsignedBorrow_shift]
      exact ih b.tail 0 hda.tail_dec hdb.tail_dec le_rfl (by norm_num) (by omega)

theorem subtractUnsigned_negative (a b : BigInt) : (a.subtractUnsigned b).negative = false := by
  simp [BigInt.subtractUnsigned, BigInt.removeLeadingZeros]

/-- Every value taken by `carry` in the loop of `multiplyDigit` is at most the multiplier
minus one. -/
theorem multiplyDigitCarries_le (m : Int) (hm : 1 ≤ m) : ∀ (ds : List Char) (c : Int),
    Dec ds → 0 ≤ c → c ≤ m - 1 → ∀ v ∈ multiplyDigitCarries m ds c, 0 ≤ v ∧ v ≤ m - 1 := by
  intro ds
  induction ds with
  | nil => intro c _ _ _ v hv; simp [multiplyDigitCarries] at hv
  | cons x ds ih =>
    intro c hd h0 h1 v hv
    have bx := hd.digitAt_decimal 0
    rw [digitAt_cons_zero] at bx
    simp only [multiplyDigitCarries] at hv
    generalize ord x - 48 = d at *
    have hp0 : 0 ≤ d * m := mul_nonneg bx.1 (by omega)
    have hp1 : d * m ≤ 9 * m := mul_le_mul_of_nonneg_right bx.2 (by omega)
    generalize hprod : d * m + c = prod at hv
    have hs0 : 0 ≤ prod := by omega
    rw [Int.tdiv_eq_ediv hs0 (by norm_num)] at hv
    have hq : 0 ≤ prod / 10 ∧ prod / 10 ≤ m - 1 := by omega
    rcases List.mem_cons.mp hv with h | h
    · rw [h]; exact hq
    · exact ih (prod / 10) hd.tail_dec hq.1 hq.2 v h

/-- The digit string returned by `multiplyDigit` for a digit of `1..9` is well formed. -/
theorem multiplyDigit_wfD (x : BigInt) (d : Int) (hx : WfD x.digits) (h1 : 1 ≤ d) (h9 : d ≤ 9) :
    WfD (x.multiplyDigit d).digits := by
  have hd : d ≠ 0 := by omega
  obtain ⟨_, _, dec⟩ := multiplyDigitLoop_spec d (by omega) (by omega) x.digits 0 hx.2.1 le_rfl
    (by norm_num)
  simp only [BigInt.multiplyDigit, hd, if_false]
  refine ⟨fun h => hx.1 (multiplyDigitLoop_eq_nil h).1, dec h9 (by norm_num), ?_⟩
  rcases hx.2.2 with hz | hn
  · left; rw [hz]; exact multiplyDigitLoop_zeroString d
  · right
    exact multiplyDigitLoop_noTrail d h1 (by omega) x.digits 0 hx.2.1 hn le_rfl (by norm_num)

theorem multiplyPoly_head (P : List BigInt) (r : BigInt) (hP : ∀ x ∈ P, x.wf = true)
    (hr : r.wf = true) :
    (multiplyPoly P r).getD 0 (BigInt.ofString ['0']) = P.getD 0 (BigInt.ofString ['0']) := by
  obtain ⟨w, v⟩ := multiplyPoly_entry P r hP hr 0 (Nat.zero_le _)
  apply toInt_inj w (getD_wf hP 0)
  rw [v, ← coefVal_nat]
  simp [coefVal]

theorem foldl_multiplyPoly_length (rs : List BigInt) : ∀ (P : List BigInt),
    (rs.foldl multiplyPoly P).length = P.length + rs.length := by
  induction rs with
  | nil => intro P; simp
  | cons r rs ih =>
    intro P
    rw [List.foldl_cons, ih, multiplyPoly_length, List.length_cons]
    omega


/-! ## The claims, continued -/

/-- C11: multiplication distributes over addition on well-formed operands of any signs:
`a * (b + c)` and `(a * b) + (a * c)` are the same `BigInt`, digit string and sign flag. -/
theorem bigint_mul_add (a b c : BigInt) (ha : a.wf = true) (hb : b.wf = true)
    (hc : c.wf = true) : a.mul (b.add c) = (a.mul b).add (a.mul c) := by
  have hbc := add_wf hb ((wf_iff c).mp hc).1
  have hab := mul_wf ha hb
  have hac := mul_wf ha hc
  apply toInt_inj (mul_wf ha hbc) (add_wf hab ((wf_iff _).mp hac).1)
  rw [mul_toInt ha hbc, add_toInt hb hc, add_toInt hab hac, mul_toInt ha hb, mul_toInt ha hc,
    mul_add]

theorem bigint_mul_add_witness :
    (⟨['3', '2', '1'], true⟩ : BigInt).wf = true ∧ (⟨['9', '9'], false⟩ : BigInt).wf = true ∧
      (⟨['4', '2', '7'], true⟩ : BigInt).wf = true ∧
      BigInt.mul ⟨['3', '2', '1'], true⟩ (BigInt.add ⟨['9', '9'], false⟩ ⟨['4', '2', '7'], true⟩) =
        BigInt.add (BigInt.mul ⟨['3', '2', '1'], true⟩ ⟨['9', '9'], false⟩)
          (BigInt.mul ⟨['3', '2', '1'], true⟩ ⟨['4', '2', '7'], true⟩) :=
  ⟨by decide, by decide, by decide,
    bigint_mul_add ⟨['3', '2', '1'], true⟩ ⟨['9', '9'], false⟩ ⟨['4', '2', '7'], true⟩
      (by decide) (by decide) (by decide)⟩

/-- C12: for every well-formed `a`, positive, negative or zero, `operator-(a, a)` is the zero
`BigInt`: the digit string is the single digit `0` and the sign flag is clear. -/
theorem bigint_sub_self (a : BigInt) (ha : a.wf = true) : a.sub a = ⟨['0'], false⟩ := by
  apply toInt_inj (sub_wf ha ha) (by decide)
  rw [sub_toInt ha ha, sub_self]
  decide

theorem bigint_sub_self_witness :
    (⟨['3', '2', '1'], true⟩ : BigInt).wf = true ∧
      BigInt.sub ⟨['3', '2', '1'], true⟩ ⟨['3', '2', '1'], true⟩ = ⟨['0'], false⟩ :=
  ⟨by decide, bigint_sub_self ⟨['3', '2', '1'], true⟩ (by decide)⟩

/-- C14: for every non-empty vector `P` of well-formed `BigInt`s and every well-formed root
`r`, `multiplyPoly(P, r)` has length `len(P) + 1`, its entry 0 is `P[0]` unchanged, its last
entry denotes `-(P[last] * r)`, and every entry `j` with `0 < j < len(P)` denotes
`P[j] - P[j-1] * r`; folding `k` roots from `[1]` gives a vector of length `k + 1`, and `[1]`
for `k = 0`. -/
theorem multiplyPoly_recurrence (P : List BigInt) (r : BigInt) (rs : List BigInt)
    (hne : P ≠ []) (hP : ∀ x ∈ P, x.wf = true) (hr : r.wf = true) :
    (multiplyPoly P r).length = P.length + 1 ∧
      (multiplyPoly P r).getD 0 (BigInt.ofString ['0']) = P.getD 0 (BigInt.ofString ['0']) ∧
      ((multiplyPoly P r).getD P.length (BigInt.ofString ['0'])).toInt =
        -((P.getD (P.length - 1) (BigInt.ofString ['0'])).toInt * r.toInt) ∧
      (∀ j, 0 < j → j < P.length →
        ((multiplyPoly P r).getD j (BigInt.ofString ['0'])).toInt =
          (P.getD j (BigInt.ofString ['0'])).toInt -
            (P.getD (j - 1) (BigInt.ofString ['0'])).toInt * r.toInt) ∧
      (expandRoots rs).length = rs.length + 1 ∧
      expandRoots [] = [BigInt.ofString ['1']] := by
  have hlen : 0 < P.length := List.length_pos.mpr hne
  refine ⟨multiplyPoly_length P r, multiplyPoly_head P r hP hr, ?_, ?_, ?_, rfl⟩
  · have h := (multiplyPoly_entry P r hP hr P.length le_rfl).2
    have hc : ((P.length : Int) - 1) = ((P.length - 1 : Nat) : Int) := by omega
    rw [h, coefVal_length, hc, coefVal_nat]
    ring
  · intro j hj0 hj
    have h := (multiplyPoly_entry P r hP hr j (le_of_lt hj)).2
    have hc : ((j : Int) - 1) = ((j - 1 : Nat) : Int) := by omega
    rw [h, coefVal_nat, hc, coefVal_nat]
    ring
  · unfold expandRoots
    rw [foldl_multiplyPoly_length, List.length_singleton]
    omega

theorem multiplyPoly_recurrence_witness :
    [BigInt.ofString ['1'], BigInt.ofString ['-', '5']] ≠ [] ∧
      (∀ x ∈ [BigInt.ofString ['1'], BigInt.ofString ['-', '5']], x.wf = true) ∧
      (BigInt.ofString ['3']).wf = true ∧
      (multiplyPoly [BigInt.ofString ['1'], BigInt.ofString ['-', '5']]
          (BigInt.ofString ['3'])).getD 0 (BigInt.ofString ['0']) =
        [BigInt.ofString ['1'], BigInt.ofString ['-', '5']].getD 0 (BigInt.ofString ['0']) :=
  ⟨by decide, by decide, by decide,
    (multiplyPoly_recurrence [BigInt.ofString ['1'], BigInt.ofString ['-', '5']]
      (BigInt.ofString ['3']) [] (by decide) (by decide) (by decide)).2.1⟩

/-- C15: for every well-formed `a` of either sign and every digit `d` in `0..9`,
`multiplyDigit(a, d)` (and `operator*(int)`, which returns it) has a clear sign flag, is the
single digit zero when `d = 0`, and otherwise is a well-formed `BigInt` denoting `|a| * d`:
the sign of the operand is never applied. -/
theorem multiplyDigit_unsigned (x : BigInt) (d : Int) (hx : x.wf = true) (h0 : 0 ≤ d)
    (h9 : d ≤ 9) :
    (x.multiplyDigit d).negative = false ∧ x.mulInt d = x.multiplyDigit d ∧
      (d = 0 → x.multiplyDigit d = ⟨['0'], false⟩) ∧
      (d ≠ 0 → (x.multiplyDigit d).wf = true ∧ (x.multiplyDigit d).toInt = |x.toInt| * d) := by
  have hw := ((wf_iff x).mp hx).1
  obtain ⟨m, _, n⟩ := multiplyDigit_spec x d hw.2.1 h0 h9
  refine ⟨n, rfl, ?_, ?_⟩
  · intro hd
    simp [BigInt.multiplyDigit, hd, ofString_zero]
  · intro hd
    have w := multiplyDigit_wfD x d hw (by omega) h9
    refine ⟨?_, ?_⟩
    · rw [wf_iff]
      exact ⟨w, fun _ => n⟩
    · have e : (x.multiplyDigit d).toInt = magnitude (x.multiplyDigit d).digits := by
        unfold BigInt.toInt
        rw [n]
        simp
      rw [e, m, (wf_sign_magnitude hx).1]

theorem multiplyDigit_unsigned_witness :
    (⟨['3', '2', '1'], true⟩ : BigInt).wf = true ∧ (0 : Int) ≤ 7 ∧ (7 : Int) ≤ 9 ∧
      (BigInt.multiplyDigit ⟨['3', '2', '1'], true⟩ 7).negative = false :=
  ⟨by decide, by decide, by decide,
    (multiplyDigit_unsigned ⟨['3', '2', '1'], true⟩ 7 (by decide) (by decide) (by decide)).1⟩

/-- C16: for well-formed `a` and `b` with `|a| >= |b|`, `subtractUnsigned(a, b)` is a
non-negative well-formed `BigInt` denoting `|a| - |b|`, and the borrow left by its loop is 0;
for well-formed `a` and `b`, `addUnsigned(a, b)` is a non-negative well-formed `BigInt`
denoting `|a| + |b|`, and its length is `max(len(a), len(b))`, plus one exactly when the carry
left by its loop is not 0. -/
theorem unsigned_primitives (a b : BigInt) (ha : a.wf = true) (hb : b.wf = true) :
    (|b.toInt| ≤ |a.toInt| →
      (a.subtractUnsigned b).wf = true ∧ (a.subtractUnsigned b).negative = false ∧
        (a.subtractUnsigned b).toInt = |a.toInt| - |b.toInt| ∧
        subtractUnsignedBorrow b.digits a.digits 0 0 = 0) ∧
      (a.addUnsigned b).wf = true ∧ (a.addUnsigned b).negative = false ∧
      (a.addUnsigned b).toInt = |a.toInt| + |b.toInt| ∧
      magnitude (a.addUnsigned b).digits = |a.toInt| + |b.toInt| ∧
      (a.addUnsigned b).digits.length = max a.digits.length b.digits.length +
        (if addUnsignedCarry a.digits b.digits (max a.digits.length b.digits.length) 0 0 ≠ 0
          then 1 else 0) := by
  have wa := ((wf_iff a).mp ha).1
  have wb := ((wf_iff b).mp hb).1
  have ma := (wf_sign_magnitude ha).1
  have mb := (wf_sign_magnitude hb).1
  have hadd := (addUnsigned_spec a b wa.2.1.loose wb.2.1).1
  have hneg : (a.addUnsigned b).negative = false := rfl
  rw [← ma, ← mb]
  refine ⟨fun hle => ?_, ?_, hneg, ?_, hadd, ?_⟩
  · obtain ⟨w, m⟩ := subtractUnsigned_spec a b wa.2.1 wa.1 wb.2.1 hle
    have n := subtractUnsigned_negative a b
    refine ⟨?_, n, ?_, ?_⟩
    · rw [wf_iff]
      exact ⟨w, fun _ => n⟩
    · unfold BigInt.toInt
      rw [n, m]
      simp
    · exact subtractUnsignedBorrow_zero a.digits b.digits 0 wa.2.1 wb.2.1 le_rfl (by norm_num)
        (by omega)
  · rw [wf_iff]
    exact ⟨addUnsigned_wfD a b wa.2.1.loose wa.1 wa.2.2 wb, fun _ => hneg⟩
  · unfold BigInt.toInt
    rw [hneg, hadd]
    simp
  · exact addUnsignedLoop_length a.digits b.digits _ 0 0

theorem unsigned_primitives_witness :
    (⟨['9', '9', '8'], true⟩ : BigInt).wf = true ∧ (⟨['3', '2', '1'], false⟩ : BigInt).wf = true ∧
      |(⟨['3', '2', '1'], false⟩ : BigInt).toInt| ≤ |(⟨['9', '9', '8'], true⟩ : BigInt).toInt| ∧
      ((BigInt.subtractUnsigned ⟨['9', '9', '8'], true⟩ ⟨['3', '2', '1'], false⟩).wf = true ∧
        (BigInt.subtractUnsigned ⟨['9', '9', '8'], true⟩ ⟨['3', '2', '1'], false⟩).negative =
          false ∧
        (BigInt.subtractUnsigned ⟨['9', '9', '8'], true⟩ ⟨['3', '2', '1'], false⟩).toInt =
          |(⟨['9', '9', '8'], true⟩ : BigInt).toInt| -
            |(⟨['3', '2', '1'], false⟩ : BigInt).toInt| ∧
        subtractUnsignedBorrow ['3', '2', '1'] ['9', '9', '8'] 0 0 = 0) ∧
      (BigInt.addUnsigned ⟨['9', '9', '8'], true⟩ ⟨['3', '2', '1'], false⟩).negative = false ∧
      (BigInt.addUnsigned ⟨['9', '9', '8'], true⟩ ⟨['3', '2', '1'], false⟩).toInt =
        |(⟨['9', '9', '8'], true⟩ : BigInt).toInt| + |(⟨['3', '2', '1'], false⟩ : BigInt).toInt| :=
  ⟨by decide, by decide, by decide,
    (unsigned_primitives ⟨['9', '9', '8'], true⟩ ⟨['3', '2', '1'], false⟩ (by decide)
      (by decide)).1 (by decide),
    (unsigned_primitives ⟨['9', '9', '8'], true⟩ ⟨['3', '2', '1'], false⟩ (by decide)
      (by decide)).2.2.1,
    (unsigned_primitives ⟨['9', '9', '8'], true⟩ ⟨['3', '2', '1'], false⟩ (by decide)
      (by decide)).2.2.2.1⟩

/-- C17: for well-formed `a` and `b`, `absCompare(a, b)` is 1, 0 or -1 exactly according to
whether `|a| > |b|`, `|a| = |b|` or `|a| < |b|`; it does not read the sign flags; and it is 0
exactly when the digit strings are identical. -/
theorem absCompare_trichotomy (a b : BigInt) (s t : Bool) (ha : a.wf = true)
    (hb : b.wf = true) :
    (a.absCompare b = 1 ↔ |b.toInt| < |a.toInt|) ∧ (a.absCompare b = 0 ↔ |a.toInt| = |b.toInt|) ∧
      (a.absCompare b = -1 ↔ |a.toInt| < |b.toInt|) ∧
      (a.absCompare b = 0 ↔ a.digits = b.digits) ∧
      BigInt.absCompare ⟨a.digits, s⟩ ⟨b.digits, t⟩ = a.absCompare b := by
  have wa := ((wf_iff a).mp ha).1
  have wb := ((wf_iff b).mp hb).1
  rw [← (wf_sign_magnitude ha).1, ← (wf_sign_magnitude hb).1]
  have hd : a.digits = b.digits ↔ magnitude a.digits = magnitude b.digits :=
    ⟨fun h => by rw [h], fun h => WfD.inj wa wb h⟩
  rw [hd]
  refine ⟨?_, ?_, ?_, ?_, rfl⟩ <;>
    rcases absCompare_spec a b wa wb with ⟨hc, hm⟩ | ⟨hc, hm⟩ | ⟨hc, hm⟩ <;>
    rw [hc] <;> constructor <;> intro h <;> omega

theorem absCompare_trichotomy_witness :
    (⟨['3', '2', '1'], true⟩ : BigInt).wf = true ∧ (⟨['9', '9'], false⟩ : BigInt).wf = true ∧
      (BigInt.absCompare ⟨['3', '2', '1'], true⟩ ⟨['9', '9'], false⟩ = 1 ↔
        |(⟨['9', '9'], false⟩ : BigInt).toInt| < |(⟨['3', '2', '1'], true⟩ : BigInt).toInt|) :=
  ⟨by decide, by decide,
    (absCompare_trichotomy ⟨['3', '2', '1'], true⟩ ⟨['9', '9'], false⟩ true false (by decide)
      (by decide)).1⟩

/-- C19: with a multiplier `m` in `10..36` the digit string returned by `operator*(int)` may
end in a character that is not a decimal digit: for `a = 9` and `m = 16` it is `4` followed by
the character of value 14, which breaks the digit invariant inside `mulBaseAdd`; yet for every
well-formed `a` and every such `m` the string still denotes `|a| * m`, summing
`element_i * 10^i`, and every carry of the loop is at most `m - 1`. -/
theorem mulInt_large_multiplier (x : BigInt) (m : Int) (hx : x.wf = true) (h10 : 10 ≤ m)
    (h36 : m ≤ 36) :
    magnitude (x.mulInt m).digits = |x.toInt| * m ∧
      (∀ v ∈ multiplyDigitCarries m x.digits 0, 0 ≤ v ∧ v ≤ m - 1) ∧
      (BigInt.mulInt ⟨['9'], false⟩ 16).digits = ['4', '>'] ∧ ord '>' - 48 = 14 ∧
      isDec '>' = false ∧ (BigInt.mulInt ⟨['9'], false⟩ 16).wf = false := by
  have hw := ((wf_iff x).mp hx).1
  obtain ⟨pm, _, _⟩ := multiplyDigitLoop_spec m (by omega) h36 x.digits 0 hw.2.1 le_rfl
    (by norm_num)
  have hm : m ≠ 0 := by omega
  refine ⟨?_, multiplyDigitCarries_le m (by omega) x.digits 0 hw.2.1 le_rfl (by omega),
    by decide, by decide, by decide, by decide⟩
  simp only [BigInt.mulInt, BigInt.multiplyDigit, hm, if_false]
  rw [pm, (wf_sign_magnitude hx).1]
  ring

theorem mulInt_large_multiplier_witness :
    (⟨['9', '9'], true⟩ : BigInt).wf = true ∧ (10 : Int) ≤ 36 ∧ (36 : Int) ≤ 36 ∧
      magnitude (BigInt.mulInt ⟨['9', '9'], true⟩ 36).digits =
        |(⟨['9', '9'], true⟩ : BigInt).toInt| * 36 :=
  ⟨by decide, by decide, by decide,
    (mulInt_large_multiplier ⟨['9', '9'], true⟩ 36 (by decide) (by decide) (by decide)).1⟩

/-- C20: multiplication is commutative on well-formed operands of any signs: `operator*(a, b)`
and `operator*(b, a)` are the same `BigInt`, digit string and sign flag. -/
theorem bigint_mul_comm (a b : BigInt) (ha : a.wf = true) (hb : b.wf = true) :
    a.mul b = b.mul a := by
  apply toInt_inj (mul_wf ha hb) (mul_wf hb ha)
  rw [mul_toInt ha hb, mul_toInt hb ha, mul_comm]

theorem bigint_mul_comm_witness :
    (⟨['3', '2', '1'], true⟩ : BigInt).wf = true ∧ (⟨['0', '9'], false⟩ : BigInt).wf = true ∧
      BigInt.mul ⟨['3', '2', '1'], true⟩ ⟨['0', '9'], false⟩ =
        BigInt.mul ⟨['0', '9'], false⟩ ⟨['3', '2', '1'], true⟩ :=
  ⟨by decide, by decide,
    bigint_mul_comm ⟨['3', '2', '1'], true⟩ ⟨['0', '9'], false⟩ (by decide) (by decide)⟩


/-! ## The order of the coefficients -/

theorem expandRoots_coeff (rs : List BigInt) (hrs : ∀ r ∈ rs, r.wf = true) (j : Nat)
    (hj : j ≤ rs.length) :
    ((expandRoots rs).getD j (BigInt.ofString ['0'])).toInt =
      ((rs.map (fun r => (Polynomial.X - Polynomial.C r.toInt : Polynomial Int))).prod).coeff
        (rs.length - j) := by
  have h1 : ∀ x ∈ [BigInt.ofString ['1']], x.wf = true := by decide
  obtain ⟨_, l, v⟩ := foldl_multiplyPoly rs [BigInt.ofString ['1']] h1 hrs
  have hone : (BigInt.ofString ['1']).toInt = 1 := by decide
  simp only [List.map_cons, List.map_nil, List.foldl_cons, List.foldl_nil, hone, zero_mul,
    zero_add, Polynomial.C_1, one_mul, List.length_singleton] at v l
  have hc := horner_coeff ((rs.foldl multiplyPoly [BigInt.ofString ['1']]).map BigInt.toInt) j
    (by rw [List.length_map]; omega)
  rw [v, List.length_map, l, map_toInt_getD] at hc
  have e : 1 + rs.length - 1 - j = rs.length - j := by omega
  rw [e] at hc
  exact hc.symm

theorem foldl_multiplyPoly_head (rs : List BigInt) : ∀ (P : List BigInt),
    (∀ x ∈ P, x.wf = true) → (∀ r ∈ rs, r.wf = true) →
    (rs.foldl multiplyPoly P).getD 0 (BigInt.ofString ['0']) =
      P.getD 0 (BigInt.ofString ['0']) := by
  induction rs with
  | nil => intro P _ _; rfl
  | cons r rs ih =>
    intro P hP hrs
    have hr := hrs r (by simp)
    rw [List.foldl_cons, ih (multiplyPoly P r) (multiplyPoly_wf P r hP hr)
      (fun x hx => hrs x (by simp [hx])), multiplyPoly_head P r hP hr]

theorem prod_linear_coeff_zero (rs : List BigInt) :
    ((rs.map (fun r => (Polynomial.X - Polynomial.C r.toInt : Polynomial Int))).prod).coeff 0 =
      (-1) ^ rs.length * (rs.map BigInt.toInt).prod := by
  induction rs with
  | nil => simp
  | cons r rs ih =>
    simp only [List.map_cons, List.prod_cons, Polynomial.mul_coeff_zero, Polynomial.coeff_sub,
      Polynomial.coeff_X_zero, Polynomial.coeff_C_zero, ih, List.length_cons, pow_succ]
    ring

/-- C18: for every list of `k` well-formed roots, folding `multiplyPoly` over them from `[1]`
yields the coefficients of the product of the `(x - r_i)` highest degree first: entry `j`
denotes the coefficient of `x^(k-j)`, entry 0 is always 1 and entry `k` denotes the constant
term `(-1)^k * r_1 * ... * r_k`; roots 2, 3 give `[1, -5, 6]`. -/
theorem expandRoots_descending (rs : List BigInt) (hrs : ∀ r ∈ rs, r.wf = true) :
    (∀ j, j ≤ rs.length →
        ((expandRoots rs).getD j (BigInt.ofString ['0'])).toInt =
          ((rs.map (fun r => (Polynomial.X - Polynomial.C r.toInt : Polynomial Int))).prod).coeff
            (rs.length - j)) ∧
      (expandRoots rs).getD 0 (BigInt.ofString ['0']) = BigInt.ofString ['1'] ∧
      ((expandRoots rs).getD rs.length (BigInt.ofString ['0'])).toInt =
        (-1) ^ rs.length * (rs.map BigInt.toInt).prod ∧
      expandRoots [BigInt.ofString ['2'], BigInt.ofString ['3']] =
        [⟨['1'], false⟩, ⟨['5'], true⟩, ⟨['6'], false⟩] := by
  refine ⟨fun j hj => expandRoots_coeff rs hrs j hj, ?_, ?_, by decide⟩
  · unfold expandRoots
    rw [foldl_multiplyPoly_head rs [BigInt.ofString ['1']] (by decide) hrs]
    rfl
  · rw [expandRoots_coeff rs hrs rs.length le_rfl, Nat.sub_self, prod_linear_coeff_zero]

theorem expandRoots_descending_witness :
    (∀ r ∈ [BigInt.ofString ['2'], BigInt.ofString ['-', '7'], BigInt.ofString ['1', '0']],
        r.wf = true) ∧
      (expandRoots [BigInt.ofString ['2'], BigInt.ofString ['-', '7'],
          BigInt.ofString ['1', '0']]).getD 0 (BigInt.ofString ['0']) =
        BigInt.ofString ['1'] :=
  ⟨by decide,
    (expandRoots_descending [BigInt.ofString ['2'], BigInt.ofString ['-', '7'],
      BigInt.ofString ['1', '0']] (by decide)).2.1⟩

/-! ## The round trip of the base conversion -/

theorem convert_magnitude (s : List Char) (b : Int) (hb2 : 2 ≤ b) (hb36 : b ≤ 36)
    (hs : ∀ c ∈ s, isAlnum c = true) :
    magnitude (convertToDecimal s b).digits = hornerValue b s := by
  obtain ⟨_, _, m⟩ := convert_fold b hb2 hb36 s (BigInt.ofString ['0']) hs zero_wf (by decide)
  have hz : magnitude (BigInt.ofString ['0']).digits = 0 := by decide
  rw [hz] at m
  exact m

theorem hornerValue_append (b : Int) (s : List Char) (c : Char) :
    hornerValue b (s ++ [c]) = hornerValue b s * b + digitValue c := by
  simp [hornerValue, List.foldl_append]

theorem digitValue_nonneg (c : Char) : 0 ≤ digitValue c := by
  unfold digitValue
  split_ifs <;> omega

theorem digitValue_ne_zero {c : Char} (h : isAlnum c = true) (hc : c ≠ '0') :
    digitValue c ≠ 0 := by
  simp only [isAlnum, Bool.or_eq_true, Bool.and_eq_true, decide_eq_true_eq] at h
  rw [Ne, eq_zero_char_iff] at hc
  unfold digitValue
  split_ifs <;> omega

theorem digitChar_digitValue {c : Char} (h : isAlnum c = true) :
    digitChar (digitValue c) = lowerChar c := by
  simp only [isAlnum, Bool.or_eq_true, Bool.and_eq_true, decide_eq_true_eq] at h
  unfold digitChar digitValue lowerChar
  by_cases h1 : 48 ≤ c.toNat ∧ c.toNat ≤ 57
  · have e : ((c.toNat : Int) - 48).toNat + 48 = c.toNat := by omega
    rw [if_pos h1, if_pos (by omega), if_neg (by omega), e, Char.ofNat_toNat]
  · by_cases h2 : 97 ≤ c.toNat ∧ c.toNat ≤ 122
    · have e : ((c.toNat : Int) - 97 + 10).toNat - 10 + 97 = c.toNat := by omega
      rw [if_neg h1, if_pos h2, if_neg (by omega), if_neg (by omega), e, Char.ofNat_toNat]
    · have h3 : 65 ≤ c.toNat ∧ c.toNat ≤ 90 := by omega
      have e : ((c.toNat : Int) - 65 + 10).toNat - 10 + 97 = c.toNat + 32 := by omega
      rw [if_neg h1, if_neg h2, if_pos h3, if_neg (by omega), if_pos h3, e]

theorem hornerValue_nonneg (b : Int) (hb : 0 ≤ b) (s : List Char) : 0 ≤ hornerValue b s := by
  induction s using List.reverseRecOn with
  | nil => simp [hornerValue]
  | append_singleton s c ih =>
    rw [hornerValue_append]
    have := digitValue_nonneg c
    have := mul_nonneg ih hb
    omega

theorem head?_append_singleton (s : List Char) (c : Char) :
    (s ++ [c]).head? = if s = [] then some c else s.head? := by
  cases s <;> simp

theorem hornerValue_pos (b : Int) (hb : 2 ≤ b) (s : List Char) (hne : s ≠ [])
    (hs : ∀ c ∈ s, isAlnum c = true) (hh : s.head? ≠ some '0') : 0 < hornerValue b s := by
  induction s using List.reverseRecOn with
  | nil => exact absurd rfl hne
  | append_singleton s c ih =>
    rw [hornerValue_append]
    have hd := digitValue_nonneg c
    rw [head?_append_singleton] at hh
    by_cases hs0 : s = []
    · subst hs0
      rw [if_pos rfl] at hh
      have := digitValue_ne_zero (hs c (by simp)) (fun e => hh (by rw [e]))
      simp [hornerValue]
      omega
    · rw [if_neg hs0] at hh
      have h1 := ih hs0 (fun x hx => hs x (by simp [hx])) hh
      have := mul_pos h1 (by omega : (0 : Int) < b)
      omega

/-- The repeated division reads the characters of a digit string back from its Horner sum. -/
theorem renderLoop_horner (b : Int) (hb : 2 ≤ b) (s : List Char) : ∀ (fuel : Nat)
    (acc : List Char), (∀ c ∈ s, isAlnum c = true ∧ digitValue c < b) →
    s.head? ≠ some '0' → hornerValue b s ≤ fuel →
    renderLoop b fuel (hornerValue b s) acc = s.map lowerChar ++ acc := by
  induction s using List.reverseRecOn with
  | nil =>
    intro fuel acc _ _ _
    cases fuel <;> simp [renderLoop, hornerValue]
  | append_singleton s c ih =>
    intro fuel acc hs hh hf
    have hc := hs c (by simp)
    have hd0 := digitValue_nonneg c
    have hH := hornerValue_nonneg b (by omega) s
    have hpos := hornerValue_pos b hb (s ++ [c]) (by simp) (fun x hx => (hs x hx).1) hh
    rw [hornerValue_append] at hpos hf ⊢
    rw [head?_append_singleton] at hh
    have hhs : s.head? ≠ some '0' := by
      by_cases hs0 : s = []
      · subst hs0; simp
      · rwa [if_neg hs0] at hh
    generalize hornerValue b s = H at *
    have hpr : 2 * H ≤ H * b := by nlinarith
    cases fuel with
    | zero => simp at hf; omega
    | succ f =>
      have hdiv : (H * b + digitValue c) / b = H := by
        rw [add_comm, Int.add_mul_ediv_right _ _ (by omega), Int.ediv_eq_zero_of_lt hd0 hc.2]
        simp
      have hmod : (H * b + digitValue c) % b = digitValue c := by
        rw [add_comm, Int.add_mul_emod_self, Int.emod_eq_of_lt hd0 hc.2]
      simp only [renderLoop]
      rw [if_neg (by omega), hdiv, hmod, digitChar_digitValue hc.1,
        ih f (lowerChar c :: acc) (fun x hx => hs x (by simp [hx])) hhs (by push_cast at hf; omega)]
      simp


theorem render_convert (b : Int) (s : List Char) (hb2 : 2 ≤ b) (hb36 : b ≤ 36)
    (hs : validDigitString b s = true) :
    renderBase b (magnitude (convertToDecimal s b).digits) = s.map lowerChar := by
  simp only [validDigitString, Bool.and_eq_true, Bool.or_eq_true, decide_eq_true_eq,
    List.all_eq_true] at hs
  obtain ⟨⟨hne, hall⟩, hlead⟩ := hs
  have halnum : ∀ c ∈ s, isAlnum c = true := fun c hc => (hall c hc).1
  rw [convert_magnitude s b hb2 hb36 halnum]
  rcases hlead with hz | hh
  · subst hz
    have dz : digitValue '0' = 0 := by decide
    have hv : hornerValue b ['0'] = 0 := by simp [hornerValue, dz]
    have hl : ['0'].map lowerChar = ['0'] := by decide
    rw [hv, hl]
    rfl
  · have hpos := hornerValue_pos b hb2 s hne halnum hh
    unfold renderBase
    rw [if_neg (by omega), renderLoop_horner b hb2 s _ [] hall hh (by omega)]
    simp

/-- C13 (as stated, refuted): `convertToDecimal(., 16)` is not injective on non-empty strings
of valid digits with no leading zero: `A` and `a` are two such strings with the same
conversion. -/
theorem convertToDecimal_not_injective :
    validDigitString 16 ['A'] = true ∧ validDigitString 16 ['a'] = true ∧
      convertToDecimal ['A'] 16 = convertToDecimal ['a'] 16 ∧ (['A'] : List Char) ≠ ['a'] := by
  decide

/-- C13 (amended): for every base `b` in `2..36` and every non-empty string `s` of valid
base-`b` digits with no leading zero, re-rendering the magnitude of `convertToDecimal(s, b)`
in base `b` by repeated division reproduces `s` up to letter case; hence two such strings with
the same conversion are equal up to letter case, and equal when neither holds an upper-case
letter. -/
theorem convert_render_roundtrip (b : Int) (s t : List Char) (hb2 : 2 ≤ b) (hb36 : b ≤ 36)
    (hs : validDigitString b s = true) (ht : validDigitString b t = true) :
    renderBase b (magnitude (convertToDecimal s b).digits) = s.map lowerChar ∧
      (convertToDecimal s b = convertToDecimal t b → s.map lowerChar = t.map lowerChar) ∧
      (s.map lowerChar = s → t.map lowerChar = t →
        convertToDecimal s b = convertToDecimal t b → s = t) := by
  have rs := render_convert b s hb2 hb36 hs
  have rt := render_convert b t hb2 hb36 ht
  have key : convertToDecimal s b = convertToDecimal t b → s.map lowerChar = t.map lowerChar := by
    intro h
    rw [← rs, ← rt, h]
  refine ⟨rs, key, fun h1 h2 h => ?_⟩
  rw [← h1, ← h2]
  exact key h

theorem convert_render_roundtrip_witness :
    (2 : Int) ≤ 16 ∧ (16 : Int) ≤ 36 ∧ validDigitString 16 ['F', 'f', '0', 'a'] = true ∧
      validDigitString 16 ['1', '0'] = true ∧
      renderBase 16 (magnitude (convertToDecimal ['F', 'f', '0', 'a'] 16).digits) =
        ['F', 'f', '0', 'a'].map lowerChar :=
  ⟨by decide, by decide, by decide, by decide,
    (convert_render_roundtrip 16 ['F', 'f', '0', 'a'] ['1', '0'] (by decide) (by decide)
      (by decide) (by decide)).1⟩

end Catalog
